import Mathlib

/-!
Verification of the MVReg (multi-value register) and LSeq (replicated
sequence) CRDTs of this repository.

The data model is embedded shallowly:

* `VClockL` models the repository's `VClock<A>` at `A = Nat`: a version
  vector, canonically an association list `(actor, counter)` sorted strictly
  by actor with positive counters (a `BTreeMap` in the source).  `vclock.rs`
  itself is not under `src/`, so its operations are modelled from §4.2 of the
  specification; `VCwf` captures the canonical-representation invariant that
  the `BTreeMap`-backed type guarantees by construction.
* `MVRegS`, `mvApply`, `mvMerge`, `mvTruncate`, `mvClock`, `mvEqB` are
  translated from `src/src/mvreg.rs` (the `CmRDT::apply`, `CvRDT::merge`,
  `Causal::truncate`, `clock` and `PartialEq` implementations).
* `LSeqS`, `lseqApply`, `lseqEqB` are translated from
  `src/src/lseq/mod.rs`; the inner `lseq.rs` / `nodes.rs` (struct fields,
  `alloc_id`, `delete_id`) are not under `src/` and are modelled from the
  specification where noted.
-/

/-- Modelled from the spec: the repository's `vclock.rs` (type `VClock`) is
not under `src/`.  Per §4.2/§3 a version vector is a finite map from actors
to counters where absence equals zero and no actor maps to zero; we represent
it as an association list of `(actor, counter)` pairs. -/
abbrev VClockL := List (Nat × Nat)

/-- Counter recorded for actor `a`; `0` when the actor is absent. -/
def vcGet : VClockL → Nat → Nat
  | [], _ => 0
  | p :: t, a => if p.1 = a then p.2 else vcGet t a

/-- Canonical-representation invariant of the `BTreeMap`-backed `VClock`:
keys strictly sorted, counters positive ("no actor maps to zero"). -/
def VCwf (v : VClockL) : Prop :=
  v.Pairwise (fun p q => p.1 < q.1) ∧ ∀ p ∈ v, 0 < p.2

instance : DecidablePred VCwf := fun v => by
  unfold VCwf; infer_instance

/-- Spec §3: `V ≤ W` iff for every actor `a`, `V[a] ≤ W[a]`. -/
def vcLeB (v w : VClockL) : Bool :=
  v.all (fun p => decide (p.2 ≤ vcGet w p.1))

/-- Spec §3: `V < W` iff `V ≤ W` and `V ≠ W` (equivalently, for the pointwise
partial order, `V ≤ W` and not `W ≤ V`). -/
def vcLtB (v w : VClockL) : Bool :=
  vcLeB v w && !(vcLeB w v)

/-- Spec §4.2 `is_empty()`. -/
def vcIsEmpty (v : VClockL) : Bool := v.isEmpty

/-- Spec §4.2 `witness(Dot d)`: set `[a] ← max(current, n)`, keeping the
representation sorted. -/
def vcWitness : VClockL → Nat → Nat → VClockL
  | [], a, n => [(a, n)]
  | p :: t, a, n =>
    if a < p.1 then (a, n) :: p :: t
    else if a = p.1 then (p.1, max p.2 n) :: t
    else p :: vcWitness t a n

/-- Spec §4.2 `merge(other)`: pointwise max, realized by witnessing every
entry of `w` into `v`. -/
def vcMerge (v w : VClockL) : VClockL :=
  w.foldl (fun acc p => vcWitness acc p.1 p.2) v

/-- Spec §4.2 `subtract(other)`: for each actor, drop the entry if
`self[a] ≤ other[a]`, else keep it unchanged. -/
def vcSubtract (v w : VClockL) : VClockL :=
  v.filter (fun p => !(decide (p.2 ≤ vcGet w p.1)))

theorem vcLeB_iff {v w : VClockL} :
    vcLeB v w = true ↔ ∀ p ∈ v, p.2 ≤ vcGet w p.1 := by
  simp [vcLeB]

theorem vcGet_eq_zero_of_not_mem {v : VClockL} {a : Nat}
    (h : ∀ p ∈ v, p.1 ≠ a) : vcGet v a = 0 := by
  induction v with
  | nil => rfl
  | cons p t ih =>
    have hp : p.1 ≠ a := h p (List.mem_cons_self ..)
    simp only [vcGet, if_neg hp]
    exact ih (fun q hq => h q (List.mem_cons_of_mem _ hq))

theorem vcGet_eq_of_mem {v : VClockL} (hwf : VCwf v) {p : Nat × Nat}
    (hp : p ∈ v) : vcGet v p.1 = p.2 := by
  induction v with
  | nil => cases hp
  | cons q t ih =>
    rcases List.mem_cons.mp hp with rfl | hmem
    · simp [vcGet]
    · have hlt : q.1 < p.1 := (List.pairwise_cons.mp hwf.1).1 _ hmem
      have : q.1 ≠ p.1 := Nat.ne_of_lt hlt
      simp only [vcGet, if_neg this]
      exact ih ⟨(List.pairwise_cons.mp hwf.1).2, fun r hr => hwf.2 r (List.mem_cons_of_mem _ hr)⟩ hmem

theorem vcGet_pos_mem {v : VClockL} {a : Nat} (h : 0 < vcGet v a) :
    ∃ p ∈ v, p.1 = a ∧ p.2 = vcGet v a := by
  induction v with
  | nil => simp [vcGet] at h
  | cons q t ih =>
    by_cases hq : q.1 = a
    · exact ⟨q, List.mem_cons_self .., hq, by simp [vcGet, hq]⟩
    · simp only [vcGet, if_neg hq] at h ⊢
      obtain ⟨p, hp, h1, h2⟩ := ih h
      exact ⟨p, List.mem_cons_of_mem _ hp, h1, h2⟩

/-- On canonical representations, mutual pointwise domination forces equal
`vcGet` functions. -/
theorem vcGet_eq_of_le_le {v w : VClockL} (hwfv : VCwf v) (hwfw : VCwf w)
    (h1 : vcLeB v w = true) (h2 : vcLeB w v = true) (a : Nat) :
    vcGet v a = vcGet w a := by
  rcases Nat.eq_zero_or_pos (vcGet v a) with hz | hp
  · rcases Nat.eq_zero_or_pos (vcGet w a) with hz' | hp'
    · omega
    · obtain ⟨p, hmem, hfst, hsnd⟩ := vcGet_pos_mem hp'
      have := vcLeB_iff.mp h2 p hmem
      rw [hfst, hsnd] at this
      omega
  · obtain ⟨p, hmem, hfst, hsnd⟩ := vcGet_pos_mem hp
    have hle := vcLeB_iff.mp h1 p hmem
    rw [hfst, hsnd] at hle
    rcases Nat.eq_zero_or_pos (vcGet w a) with hz' | hp'
    · omega
    · obtain ⟨q, hqmem, hqfst, hqsnd⟩ := vcGet_pos_mem hp'
      have := vcLeB_iff.mp h2 q hqmem
      rw [hqfst, hqsnd] at this
      omega

/-- Canonical representations with equal `vcGet` functions are equal lists. -/
theorem vc_ext {v w : VClockL} (hwfv : VCwf v) (hwfw : VCwf w)
    (h : ∀ a, vcGet v a = vcGet w a) : v = w := by
  induction v generalizing w with
  | nil =>
    cases w with
    | nil => rfl
    | cons q t =>
      have hq : vcGet (q :: t) q.1 = q.2 := vcGet_eq_of_mem hwfw (List.mem_cons_self ..)
      have hpos : 0 < q.2 := hwfw.2 q (List.mem_cons_self ..)
      have := h q.1
      simp [vcGet] at this
      omega
  | cons p t ih =>
    cases w with
    | nil =>
      have hp : vcGet (p :: t) p.1 = p.2 := vcGet_eq_of_mem hwfv (List.mem_cons_self ..)
      have hpos : 0 < p.2 := hwfv.2 p (List.mem_cons_self ..)
      have := h p.1
      simp [vcGet] at this
      omega
    | cons q s =>
      have hwfv' : VCwf t := ⟨(List.pairwise_cons.mp hwfv.1).2, fun r hr => hwfv.2 r (List.mem_cons_of_mem _ hr)⟩
      have hwfw' : VCwf s := ⟨(List.pairwise_cons.mp hwfw.1).2, fun r hr => hwfw.2 r (List.mem_cons_of_mem _ hr)⟩
      have hppos : 0 < p.2 := hwfv.2 p (List.mem_cons_self ..)
      have hqpos : 0 < q.2 := hwfw.2 q (List.mem_cons_self ..)
      -- the heads carry the least actor on each side, so they must agree
      have hpq : p.1 = q.1 := by
        rcases Nat.lt_trichotomy p.1 q.1 with hlt | heq | hgt
        · -- actor p.1 is absent from the right-hand clock
          have hz : vcGet (q :: s) p.1 = 0 := by
            apply vcGet_eq_zero_of_not_mem
            intro r hr
            rcases List.mem_cons.mp hr with rfl | hmem
            · omega
            · have := (List.pairwise_cons.mp hwfw.1).1 _ hmem
              omega
          have hv : vcGet (p :: t) p.1 = p.2 :=
            vcGet_eq_of_mem hwfv (List.mem_cons_self ..)
          have := h p.1
          rw [hz, hv] at this
          omega
        · exact heq
        · have hz : vcGet (p :: t) q.1 = 0 := by
            apply vcGet_eq_zero_of_not_mem
            intro r hr
            rcases List.mem_cons.mp hr with rfl | hmem
            · omega
            · have := (List.pairwise_cons.mp hwfv.1).1 _ hmem
              omega
          have hw : vcGet (q :: s) q.1 = q.2 :=
            vcGet_eq_of_mem hwfw (List.mem_cons_self ..)
          have := h q.1
          rw [hz, hw] at this
          omega
      have hcnt : p.2 = q.2 := by
        have hv : vcGet (p :: t) p.1 = p.2 :=
          vcGet_eq_of_mem hwfv (List.mem_cons_self ..)
        have hw : vcGet (q :: s) p.1 = q.2 := by
          rw [hpq]
          exact vcGet_eq_of_mem hwfw (List.mem_cons_self ..)
        have := h p.1
        rw [hv, hw] at this
        exact this
      have htail : t = s := by
        apply ih hwfv' hwfw'
        intro a
        by_cases ha : a = p.1
        · have h1 : vcGet t a = 0 := by
            apply vcGet_eq_zero_of_not_mem
            intro r hr
            have := (List.pairwise_cons.mp hwfv.1).1 _ hr
            omega
          have h2 : vcGet s a = 0 := by
            apply vcGet_eq_zero_of_not_mem
            intro r hr
            have := (List.pairwise_cons.mp hwfw.1).1 _ hr
            omega
          rw [h1, h2]
        · have hp1 : p.1 ≠ a := Ne.symm ha
          have hq1 : q.1 ≠ a := by rw [← hpq]; exact hp1
          have := h a
          simp only [vcGet, if_neg hp1, if_neg hq1] at this
          exact this
      have hhead : p = q := Prod.ext hpq hcnt
      rw [hhead, htail]

/-- Lists related by mutual pointwise domination are equal when canonical. -/
theorem vc_antisymm {v w : VClockL} (hwfv : VCwf v) (hwfw : VCwf w)
    (h1 : vcLeB v w = true) (h2 : vcLeB w v = true) : v = w :=
  vc_ext hwfv hwfw (vcGet_eq_of_le_le hwfv hwfw h1 h2)

theorem vcLeB_refl {v : VClockL} (hwf : VCwf v) : vcLeB v v = true :=
  vcLeB_iff.mpr fun p hp => by rw [vcGet_eq_of_mem hwf hp]

theorem vcWitness_key_mem {l : VClockL} {a n : Nat} {r : Nat × Nat}
    (h : r ∈ vcWitness l a n) : r.1 = a ∨ r.1 ∈ l.map Prod.fst := by
  induction l with
  | nil =>
    simp [vcWitness] at h
    simp [h]
  | cons p t ih =>
    by_cases h1 : a < p.1
    · simp only [vcWitness, if_pos h1] at h
      rcases List.mem_cons.mp h with rfl | h'
      · exact Or.inl rfl
      · exact Or.inr (List.mem_map_of_mem _ h')
    · by_cases h2 : a = p.1
      · simp only [vcWitness, if_neg h1, if_pos h2] at h
        rcases List.mem_cons.mp h with rfl | h'
        · exact Or.inr (by simp)
        · exact Or.inr (by simp [List.mem_map_of_mem _ h'])
      · simp only [vcWitness, if_neg h1, if_neg h2] at h
        rcases List.mem_cons.mp h with rfl | h'
        · exact Or.inr (by simp)
        · rcases ih h' with hl | hl
          · exact Or.inl hl
          · exact Or.inr (by simp [hl])

theorem vcWitness_wf {l : VClockL} {a n : Nat} (hwf : VCwf l) (hn : 0 < n) :
    VCwf (vcWitness l a n) := by
  induction l with
  | nil => exact ⟨by simp [vcWitness], by simp [vcWitness]; omega⟩
  | cons p t ih =>
    have hwt : VCwf t :=
      ⟨(List.pairwise_cons.mp hwf.1).2, fun r hr => hwf.2 r (List.mem_cons_of_mem _ hr)⟩
    by_cases h1 : a < p.1
    · simp only [vcWitness, if_pos h1]
      refine ⟨List.pairwise_cons.mpr ⟨?_, hwf.1⟩, ?_⟩
      · intro r hr
        rcases List.mem_cons.mp hr with rfl | hmem
        · exact h1
        · have := (List.pairwise_cons.mp hwf.1).1 _ hmem
          omega
      · intro r hr
        rcases List.mem_cons.mp hr with rfl | hmem
        · exact hn
        · exact hwf.2 r hmem
    · by_cases h2 : a = p.1
      · simp only [vcWitness, if_neg h1, if_pos h2]
        refine ⟨List.pairwise_cons.mpr ⟨?_, hwt.1⟩, ?_⟩
        · intro r hr
          exact (List.pairwise_cons.mp hwf.1).1 _ hr
        · intro r hr
          rcases List.mem_cons.mp hr with rfl | hmem
          · have := hwf.2 p (List.mem_cons_self ..)
            simp
            omega
          · exact hwt.2 r hmem
      · simp only [vcWitness, if_neg h1, if_neg h2]
        refine ⟨List.pairwise_cons.mpr ⟨?_, (ih hwt).1⟩, ?_⟩
        · intro r hr
          rcases vcWitness_key_mem hr with hk | hk
          · omega
          · obtain ⟨q, hq, hqk⟩ := List.mem_map.mp hk
            have := (List.pairwise_cons.mp hwf.1).1 _ hq
            omega
        · intro r hr
          rcases List.mem_cons.mp hr with rfl | hmem
          · exact hwf.2 r (List.mem_cons_self ..)
          · exact (ih hwt).2 r hmem

theorem vcGet_witness {l : VClockL} (hwf : VCwf l) (a n x : Nat) :
    vcGet (vcWitness l a n) x =
      if x = a then max (vcGet l a) n else vcGet l x := by
  induction l with
  | nil =>
    by_cases hx : x = a
    · simp [vcWitness, vcGet, hx]
    · have hax : a ≠ x := Ne.symm hx
      simp [vcWitness, vcGet, hx, hax]
  | cons p t ih =>
    have hwt : VCwf t :=
      ⟨(List.pairwise_cons.mp hwf.1).2, fun r hr => hwf.2 r (List.mem_cons_of_mem _ hr)⟩
    rcases Nat.lt_trichotomy a p.1 with h1 | h2 | h3
    · -- actor below every key: entry freshly prepended
      have hza : vcGet (p :: t) a = 0 := by
        apply vcGet_eq_zero_of_not_mem
        intro r hr
        rcases List.mem_cons.mp hr with rfl | hmem
        · omega
        · have := (List.pairwise_cons.mp hwf.1).1 _ hmem
          omega
      simp only [vcWitness, if_pos h1]
      by_cases hx : x = a
      · have hax : a = x := hx.symm
        show (if a = x then n else vcGet (p :: t) x) =
          if x = a then max (vcGet (p :: t) a) n else vcGet (p :: t) x
        rw [if_pos hax, if_pos hx, hza]
        simp
      · have hax : a ≠ x := Ne.symm hx
        show (if a = x then n else vcGet (p :: t) x) =
          if x = a then max (vcGet (p :: t) a) n else vcGet (p :: t) x
        rw [if_neg hax, if_neg hx]
    · -- actor matches the head key
      have hn1 : ¬a < p.1 := by omega
      have hta : vcGet t a = 0 := by
        apply vcGet_eq_zero_of_not_mem
        intro r hr
        have := (List.pairwise_cons.mp hwf.1).1 _ hr
        omega
      simp only [vcWitness, if_neg hn1, if_pos h2]
      by_cases hx : x = a
      · have hpx : p.1 = x := by omega
        have hpa : p.1 = a := by omega
        simp only [vcGet, if_pos hpx, if_pos hx, if_pos hpa]
      · have hpx : ¬p.1 = x := by omega
        simp only [vcGet, if_neg hpx, if_neg hx]
    · -- actor above the head key: recurse into the tail
      have hn1 : ¬a < p.1 := by omega
      have hn2 : ¬a = p.1 := by omega
      simp only [vcWitness, if_neg hn1, if_neg hn2]
      by_cases hpx : p.1 = x
      · have hxa : ¬x = a := by omega
        simp only [vcGet, if_pos hpx, if_neg hxa, if_pos hpx]
      · have hpa : ¬p.1 = a := by omega
        simp only [vcGet, if_neg hpx, ih hwt, if_neg hpa]

theorem vcMerge_wf {w : VClockL} : ∀ {v : VClockL}, VCwf v →
    (∀ p ∈ w, 0 < p.2) → VCwf (vcMerge v w) := by
  induction w with
  | nil => intro v hv _; exact hv
  | cons p t ih =>
    intro v hv hw
    show VCwf (vcMerge (vcWitness v p.1 p.2) t)
    exact ih (vcWitness_wf hv (hw p (List.mem_cons_self ..)))
      (fun r hr => hw r (List.mem_cons_of_mem _ hr))

theorem vcGet_merge {w : VClockL} : ∀ {v : VClockL}, VCwf v → VCwf w →
    ∀ x, vcGet (vcMerge v w) x = max (vcGet v x) (vcGet w x) := by
  induction w with
  | nil =>
    intro v _ _ x
    simp [vcMerge, vcGet]
  | cons p t ih =>
    intro v hv hw x
    have hwt : VCwf t :=
      ⟨(List.pairwise_cons.mp hw.1).2, fun r hr => hw.2 r (List.mem_cons_of_mem _ hr)⟩
    have hstep : vcMerge v (p :: t) = vcMerge (vcWitness v p.1 p.2) t := rfl
    rw [hstep, ih (vcWitness_wf hv (hw.2 p (List.mem_cons_self ..))) hwt x,
      vcGet_witness hv p.1 p.2 x]
    by_cases hx : x = p.1
    · have hta : vcGet t p.1 = 0 := by
        apply vcGet_eq_zero_of_not_mem
        intro r hr
        have := (List.pairwise_cons.mp hw.1).1 _ hr
        omega
      rw [hx]
      simp [vcGet, hta]
    · have hpx : p.1 ≠ x := fun hh => hx hh.symm
      simp only [if_neg hx, vcGet, if_neg hpx]

/-- State of `MVReg<V, A>` at `A = Nat` (src/src/mvreg.rs, `struct MVReg`):
a vector of `(VClock, value)` pairs. -/
structure MVRegS (V : Type) where
  vals : List (VClockL × V)
deriving DecidableEq

/-- The operation set over the MVReg (src/src/mvreg.rs, `enum Op`). -/
inductive MVOp (V : Type) where
  | Put (clock : VClockL) (val : V)
deriving DecidableEq

/-- `MVReg::new` / `Default::default`: the empty register. -/
def MVRegS.new {V : Type} : MVRegS V := ⟨[]⟩

/-- `CmRDT::apply` for `MVReg` (src/src/mvreg.rs): an empty-clock op
returns early; otherwise entries dominated by the op clock are retained
out, and the op entry is pushed unless some surviving entry strictly
dominates the op clock. -/
def mvApply {V : Type} (r : MVRegS V) : MVOp V → MVRegS V
  | .Put clock val =>
    if vcIsEmpty clock then r
    else
      let kept := r.vals.filter (fun e => !(vcLeB e.1 clock))
      if kept.all (fun e => !(vcLtB clock e.1)) then ⟨kept ++ [(clock, val)]⟩
      else ⟨kept⟩

/-- First loop of `CvRDT::merge` (src/src/mvreg.rs): keep the entries of
`self` that no entry of `other` strictly dominates. -/
def mvKeep {V : Type} (r o : MVRegS V) : List (VClockL × V) :=
  r.vals.filter (fun e => decide ((o.vals.filter (fun f => vcLtB e.1 f.1)).length = 0))

/-- Body of the second loop of `CvRDT::merge`: push an entry of `other`
when no entry of `self` strictly dominates it and its clock is new. -/
def mvMergeStep {V : Type} (rvals : List (VClockL × V))
    (acc : List (VClockL × V)) (f : VClockL × V) : List (VClockL × V) :=
  if (rvals.filter (fun e => vcLtB f.1 e.1)).length = 0 then
    if acc.all (fun g => decide (g.1 ≠ f.1)) then acc ++ [f] else acc
  else acc

/-- `CvRDT::merge` for `MVReg` (src/src/mvreg.rs). -/
def mvMerge {V : Type} (r o : MVRegS V) : MVRegS V :=
  ⟨o.vals.foldl (mvMergeStep r.vals) (mvKeep r o)⟩

/-- `Causal::truncate` for `MVReg` (src/src/mvreg.rs): subtract the given
clock from every entry clock, dropping entries whose clock becomes empty. -/
def mvTruncate {V : Type} (r : MVRegS V) (clock : VClockL) : MVRegS V :=
  ⟨r.vals.filterMap (fun e =>
    let c := vcSubtract e.1 clock
    if vcIsEmpty c then none else some (c, e.2))⟩

/-- `MVReg::clock` (src/src/mvreg.rs): join of all entry clocks. -/
def mvClock {V : Type} (r : MVRegS V) : VClockL :=
  r.vals.foldl (fun acc e => vcMerge acc e.1) []

/-- One direction of `PartialEq for MVReg` (src/src/mvreg.rs): each entry
of `xs` occurs among `ys` (the loop returns `false` on a zero count). -/
def mvContainsAll {V : Type} [DecidableEq V]
    (xs ys : List (VClockL × V)) : Bool :=
  xs.all (fun e => !(decide ((ys.filter (fun f => decide (f = e))).length = 0)))

/-- `PartialEq for MVReg` (src/src/mvreg.rs) with the two sanity
`assert_eq!(num_found, 1)` statements ignored (they are modelled separately
by `mvEqChecked`). -/
def mvEqB {V : Type} [DecidableEq V] (r s : MVRegS V) : Bool :=
  mvContainsAll r.vals s.vals && mvContainsAll s.vals r.vals

/-- One loop of `PartialEq for MVReg` with the `assert_eq!(num_found, 1)`
modelled: `none` is a panic, `some b` a normal return. -/
def mvEntriesChecked {V : Type} [DecidableEq V] :
    List (VClockL × V) → List (VClockL × V) → Option Bool
  | [], _ => some true
  | e :: t, ys =>
    let n := (ys.filter (fun f => decide (f = e))).length
    if n = 0 then some false
    else if n = 1 then mvEntriesChecked t ys
    else none

/-- `PartialEq for MVReg` (src/src/mvreg.rs) with panics modelled as
`none`. -/
def mvEqChecked {V : Type} [DecidableEq V] (r s : MVRegS V) : Option Bool :=
  match mvEntriesChecked r.vals s.vals with
  | none => none
  | some false => some false
  | some true => mvEntriesChecked s.vals r.vals

theorem mvContainsAll_iff {V : Type} [DecidableEq V]
    {xs ys : List (VClockL × V)} :
    mvContainsAll xs ys = true ↔ ∀ e ∈ xs, e ∈ ys := by
  unfold mvContainsAll
  rw [List.all_eq_true]
  constructor
  · intro h e he
    have h1 := h e he
    rw [Bool.not_eq_true', decide_eq_false_iff_not, List.length_eq_zero,
      List.filter_eq_nil_iff] at h1
    push_neg at h1
    obtain ⟨f, hf, hdec⟩ := h1
    have hfe : f = e := of_decide_eq_true hdec
    exact hfe ▸ hf
  · intro h e he
    rw [Bool.not_eq_true', decide_eq_false_iff_not, List.length_eq_zero,
      List.filter_eq_nil_iff]
    push_neg
    exact ⟨e, h e he, by simp⟩

theorem mvEqB_iff {V : Type} [DecidableEq V] {r s : MVRegS V} :
    mvEqB r s = true ↔
      (∀ e ∈ r.vals, e ∈ s.vals) ∧ (∀ e ∈ s.vals, e ∈ r.vals) := by
  simp [mvEqB, mvContainsAll_iff]

theorem vcIsEmpty_eq_false {c : VClockL} (h : c ≠ []) : vcIsEmpty c = false := by
  cases c with
  | nil => exact absurd rfl h
  | cons p t => rfl

theorem filterLen_zero_iff {α : Type} {p : α → Bool} {l : List α} :
    (l.filter p).length = 0 ↔ ∀ a ∈ l, ¬p a := by
  rw [List.length_eq_zero, List.filter_eq_nil_iff]

theorem mem_mvKeep {V : Type} {r o : MVRegS V} {x : VClockL × V} :
    x ∈ mvKeep r o ↔ x ∈ r.vals ∧ ∀ f ∈ o.vals, ¬vcLtB x.1 f.1 := by
  unfold mvKeep
  rw [List.mem_filter, decide_eq_true_iff, filterLen_zero_iff]

theorem mvMergeFold_subset {V : Type} (rvals : List (VClockL × V)) :
    ∀ (l acc : List (VClockL × V)), acc ⊆ l.foldl (mvMergeStep rvals) acc := by
  intro l
  induction l with
  | nil => intro acc; exact fun _ h => h
  | cons f t ih =>
    intro acc
    have hstep : acc ⊆ mvMergeStep rvals acc f := by
      unfold mvMergeStep
      by_cases h1 : (rvals.filter (fun e => vcLtB f.1 e.1)).length = 0
      · rw [if_pos h1]
        by_cases h2 : acc.all (fun g => decide (g.1 ≠ f.1))
        · rw [if_pos h2]
          exact fun _ h => List.mem_append_left _ h
        · rw [if_neg h2]
          exact fun _ h => h
      · rw [if_neg h1]
        exact fun _ h => h
    exact fun x hx => ih (mvMergeStep rvals acc f) (hstep hx)

theorem mvMergeFold_mem {V : Type} (rvals : List (VClockL × V)) :
    ∀ (l acc base : List (VClockL × V)), base ⊆ acc →
    ∀ x, x ∈ l.foldl (mvMergeStep rvals) acc →
      x ∈ acc ∨ (x ∈ l ∧ (∀ e ∈ rvals, ¬vcLtB x.1 e.1) ∧
        ∀ g ∈ base, g.1 ≠ x.1) := by
  intro l
  induction l with
  | nil =>
    intro acc base _ x hx
    exact Or.inl hx
  | cons f t ih =>
    intro acc base hbase x hx
    have hsub : acc ⊆ mvMergeStep rvals acc f := by
      intro y hy
      unfold mvMergeStep
      by_cases h1 : (rvals.filter (fun e => vcLtB f.1 e.1)).length = 0
      · rw [if_pos h1]
        by_cases h2 : acc.all (fun g => decide (g.1 ≠ f.1))
        · rw [if_pos h2]; exact List.mem_append_left _ hy
        · rw [if_neg h2]; exact hy
      · rw [if_neg h1]; exact hy
    have hx' := ih (mvMergeStep rvals acc f) base
      (fun y hy => hsub (hbase hy)) x hx
    rcases hx' with hacc | ⟨hmem, hnd, hnew⟩
    · -- x entered at this step or was already present
      unfold mvMergeStep at hacc
      by_cases h1 : (rvals.filter (fun e => vcLtB f.1 e.1)).length = 0
      · rw [if_pos h1] at hacc
        by_cases h2 : acc.all (fun g => decide (g.1 ≠ f.1))
        · rw [if_pos h2] at hacc
          rcases List.mem_append.mp hacc with h | h
          · exact Or.inl h
          · have hxf : x = f := by simpa using h
            refine Or.inr ⟨hxf ▸ List.mem_cons_self .., ?_, ?_⟩
            · intro e he
              have := filterLen_zero_iff.mp h1 e he
              rw [hxf]
              exact this
            · intro g hg
              have := List.all_eq_true.mp h2 g (hbase hg)
              rw [hxf]
              exact of_decide_eq_true this
        · rw [if_neg h2] at hacc
          exact Or.inl hacc
      · rw [if_neg h1] at hacc
        exact Or.inl hacc
    · exact Or.inr ⟨List.mem_cons_of_mem _ hmem, hnd, hnew⟩

theorem mvMergeFold_clock {V : Type} (rvals : List (VClockL × V)) :
    ∀ (l acc : List (VClockL × V)) (x : VClockL × V), x ∈ l →
      (∀ e ∈ rvals, ¬vcLtB x.1 e.1) →
      ∃ g ∈ l.foldl (mvMergeStep rvals) acc, g.1 = x.1 := by
  intro l
  induction l with
  | nil => intro acc x hx; cases hx
  | cons f t ih =>
    intro acc x hx hnd
    rcases List.mem_cons.mp hx with rfl | hmem
    · -- x is processed at this step: afterwards some entry carries its clock
      have hpresent : ∃ g ∈ mvMergeStep rvals acc x, g.1 = x.1 := by
        unfold mvMergeStep
        have h1 : (rvals.filter (fun e => vcLtB x.1 e.1)).length = 0 :=
          filterLen_zero_iff.mpr hnd
        rw [if_pos h1]
        by_cases h2 : acc.all (fun g => decide (g.1 ≠ x.1))
        · rw [if_pos h2]
          exact ⟨x, List.mem_append_right _ (List.mem_cons_self ..), rfl⟩
        · rw [if_neg h2]
          rw [List.all_eq_true] at h2
          push_neg at h2
          obtain ⟨g, hg, hgx⟩ := h2
          have hgx' : g.1 = x.1 := by
            by_contra hne
            exact hgx (decide_eq_true hne)
          exact ⟨g, hg, hgx'⟩
      obtain ⟨g, hg, hgx⟩ := hpresent
      exact ⟨g, mvMergeFold_subset rvals t (mvMergeStep rvals acc x) hg, hgx⟩
    · exact ih (mvMergeStep rvals acc f) x hmem hnd

theorem mem_mvMerge_of_left {V : Type} {r o : MVRegS V} {x : VClockL × V}
    (hx : x ∈ r.vals) (hnd : ∀ f ∈ o.vals, ¬vcLtB x.1 f.1) :
    x ∈ (mvMerge r o).vals :=
  mvMergeFold_subset r.vals o.vals (mvKeep r o) (mem_mvKeep.mpr ⟨hx, hnd⟩)

theorem mem_mvMerge_cases {V : Type} {r o : MVRegS V} {x : VClockL × V}
    (hx : x ∈ (mvMerge r o).vals) :
    x ∈ mvKeep r o ∨ (x ∈ o.vals ∧ (∀ e ∈ r.vals, ¬vcLtB x.1 e.1) ∧
      ∀ g ∈ mvKeep r o, g.1 ≠ x.1) :=
  mvMergeFold_mem r.vals o.vals (mvKeep r o) (mvKeep r o) (fun _ h => h) x hx

theorem clock_mem_mvMerge_of_right {V : Type} {r o : MVRegS V}
    {x : VClockL × V} (hx : x ∈ o.vals)
    (hnd : ∀ e ∈ r.vals, ¬vcLtB x.1 e.1) :
    ∃ g ∈ (mvMerge r o).vals, g.1 = x.1 :=
  mvMergeFold_clock r.vals o.vals (mvKeep r o) x hx hnd

/-- C1: the claim says that after merging two registers that each hold an
entry with the same clock `[(0,1)]` but different values `1` and `2`, both
entries are retained.  In fact `merge` deduplicates by clock alone: the
merged register holds only the left register's entry `([(0,1)], 1)`, and
the right register's entry `([(0,1)], 2)` is dropped. -/
theorem C1_counterexample :
    (mvMerge (⟨[([(0, 1)], 1)]⟩ : MVRegS Nat) ⟨[([(0, 1)], 2)]⟩).vals
        = [([(0, 1)], 1)] ∧
      ([(0, 1)], 2) ∉
        (mvMerge (⟨[([(0, 1)], 1)]⟩ : MVRegS Nat) ⟨[([(0, 1)], 2)]⟩).vals := by
  constructor
  · rfl
  · decide

/-- C1 (amended): `MVReg::merge` deduplicates entries by clock alone.  If
`r1` holds `(c, v1)` and no entry of `r2` strictly dominates `c`, then the
merged register retains `r1`'s entry `(c, v1)`, and for any value
`v2 ≠ v1` not already paired with `c` inside `r1`, the entry `(c, v2)` is
absent from the merge — even when `(c, v2)` is an entry of `r2`. -/
theorem C1_amended {V : Type} (r1 r2 : MVRegS V) (c : VClockL) (v1 : V)
    (h1 : (c, v1) ∈ r1.vals)
    (hnd : ∀ f ∈ r2.vals, ¬vcLtB c f.1) :
    (c, v1) ∈ (mvMerge r1 r2).vals ∧
      ∀ v2, v2 ≠ v1 → (c, v2) ∉ r1.vals → (c, v2) ∉ (mvMerge r1 r2).vals := by
  have hkeep : (c, v1) ∈ mvKeep r1 r2 := mem_mvKeep.mpr ⟨h1, hnd⟩
  refine ⟨mem_mvMerge_of_left h1 hnd, ?_⟩
  intro v2 _ hnot hmem
  rcases mem_mvMerge_cases hmem with hk | ⟨_, _, hnew⟩
  · exact hnot (mem_mvKeep.mp hk).1
  · exact hnew (c, v1) hkeep rfl

/-- C1 witness: the amended statement evaluated at a concrete register
pair. -/
theorem C1_witness :
    ([(0, 1)], 1) ∈
        (mvMerge (⟨[([(0, 1)], 1)]⟩ : MVRegS Nat) ⟨[([(0, 1)], 3)]⟩).vals ∧
      ([(0, 1)], 3) ∉
        (mvMerge (⟨[([(0, 1)], 1)]⟩ : MVRegS Nat) ⟨[([(0, 1)], 3)]⟩).vals := by
  have h := C1_amended (⟨[([(0, 1)], 1)]⟩ : MVRegS Nat) ⟨[([(0, 1)], 3)]⟩
    [(0, 1)] 1 (by decide) (by decide)
  exact ⟨h.1, h.2 3 (by decide) (by decide)⟩

/-- C2: the claim says applying `Put { clock: c, val: v2 }` to a register
holding `(c, v1)` (same clock, `v2 ≠ v1`) leaves both entries side by
side.  In fact `apply` first retains out every entry whose clock is `≤ c`
— including the equal-clock entry — and then pushes `(c, v2)`: the old
entry is replaced, not kept alongside. -/
theorem C2_counterexample :
    (mvApply (⟨[([(0, 1)], 1)]⟩ : MVRegS Nat) (.Put [(0, 1)] 2)).vals
        = [([(0, 1)], 2)] ∧
      ([(0, 1)], 1) ∉
        (mvApply (⟨[([(0, 1)], 1)]⟩ : MVRegS Nat) (.Put [(0, 1)] 2)).vals := by
  constructor
  · rfl
  · decide

/-- C2 (amended): applying `Put { clock: c, val: v2 }` with a canonical
non-empty `c` to a register holding `(c, v1)` with `v1 ≠ v2` removes the
existing equal-clock entry, and pushes `(c, v2)` whenever no entry of the
register strictly dominates `c`; equal-clock distinct-value entries never
coexist after the apply. -/
theorem C2_amended {V : Type} (r : MVRegS V) (c : VClockL) (v1 v2 : V)
    (hwf : VCwf c) (hne : c ≠ []) (h1 : (c, v1) ∈ r.vals) (hv : v1 ≠ v2) :
    (c, v1) ∉ (mvApply r (.Put c v2)).vals ∧
      ((∀ e ∈ r.vals, ¬vcLtB c e.1) →
        (c, v2) ∈ (mvApply r (.Put c v2)).vals) := by
  have hemp : vcIsEmpty c = false := vcIsEmpty_eq_false hne
  have hrefl : vcLeB c c = true := vcLeB_refl hwf
  constructor
  · intro hmem
    simp only [mvApply, hemp, Bool.false_eq_true, if_false] at hmem
    by_cases hall :
        (r.vals.filter (fun e => !(vcLeB e.1 c))).all (fun e => !(vcLtB c e.1))
    · rw [if_pos hall] at hmem
      rcases List.mem_append.mp hmem with hk | hlast
      · have := (List.mem_filter.mp hk).2
        rw [hrefl] at this
        exact absurd this (by decide)
      · have : v1 = v2 := by
          have := List.mem_singleton.mp hlast
          exact congrArg Prod.snd this
        exact hv this
    · rw [if_neg hall] at hmem
      have := (List.mem_filter.mp hmem).2
      rw [hrefl] at this
      exact absurd this (by decide)
  · intro hnd
    simp only [mvApply, hemp, Bool.false_eq_true, if_false]
    have hall :
        (r.vals.filter (fun e => !(vcLeB e.1 c))).all (fun e => !(vcLtB c e.1))
          = true := by
      rw [List.all_eq_true]
      intro e he
      have hmem := (List.mem_filter.mp he).1
      have := hnd e hmem
      simp [Bool.not_eq_true] at this ⊢
      exact this
    rw [if_pos hall]
    exact List.mem_append_right _ (List.mem_singleton.mpr rfl)

/-- C2 witness: the amended statement evaluated at a concrete register. -/
theorem C2_witness :
    ([(0, 1)], 1) ∉
        (mvApply (⟨[([(0, 1)], 1)]⟩ : MVRegS Nat) (.Put [(0, 1)] 2)).vals ∧
      ([(0, 1)], 2) ∈
        (mvApply (⟨[([(0, 1)], 1)]⟩ : MVRegS Nat) (.Put [(0, 1)] 2)).vals := by
  have h := C2_amended (⟨[([(0, 1)], 1)]⟩ : MVRegS Nat) [(0, 1)] 1 2
    (by decide) (by decide) (by decide) (by decide)
  exact ⟨h.1, h.2 (by decide)⟩

/-- Identifier of an LSeq atom: per spec §3 a list of `(position, actor)`
levels forming a path in a variable-arity tree. -/
abbrev IdentL := List (Nat × Nat)

/-- A dot, `(actor, counter)`, naming one event. -/
abbrev DotL := Nat × Nat

/-- Modelled from the spec: the `LSeq` struct lives in the missing
`lseq.rs`; spec §3 describes its state as "an ordered sequence of
`(Identifier, (Dot, Value))` entries plus a global `VClock` summarizing
applied events", and `src/src/lseq/mod.rs` iterates a `siblings` container
of exactly that entry shape. -/
structure LSeqS (V : Type) where
  siblings : List (IdentL × (DotL × V))
  clock : VClockL
deriving DecidableEq

/-- The empty sequence. -/
def LSeqS.new {V : Type} : LSeqS V := ⟨[], []⟩

/-- The operation set over the LSeq (`Op` match arms in
`src/src/lseq/mod.rs`; payload fields per spec §4.6). -/
inductive LSeqOp (V : Type) where
  | Insert (clock : VClockL) (value : V) (p q : Option IdentL)
  | Delete (clock : VClockL) (id : IdentL)
deriving DecidableEq

/-- Modelled from the spec: a deterministic dot derived from the op clock
(spec §4.6 inserts `(id, (dot_from_clock, value))`). -/
def dotOfClock (c : VClockL) : DotL :=
  match c with
  | [] => (0, 0)
  | p :: _ => p

/-- Modelled from the spec: `alloc_id` lives in the missing `lseq.rs`.
The claims settled here do not depend on where in the dense order a fresh
identifier lands, only on allocation being deterministic and injective in
the op clock (spec §3: "All identifiers are unique"; §4.6: replicas with
identical inputs mint identical identifiers), so the op clock itself — a
list of `(Nat, Nat)` levels, the same shape as an identifier — serves as
the allocated identifier.  A duplicate delivery, recognized because the op
clock is already contained in the global clock, is skipped, realizing the
spec's op idempotence (§4.4, P1); a genuinely fresh op always passes the
guard because it carries a fresh dot for its actor. -/
def lseqAllocId {V : Type} (s : LSeqS V) (p q : Option IdentL)
    (clock : VClockL) (value : V) : LSeqS V :=
  if vcLeB clock s.clock then s
  else ⟨(clock, (dotOfClock clock, value)) :: s.siblings, vcMerge s.clock clock⟩

/-- Modelled from the spec: `delete_id` lives in the missing `lseq.rs`;
spec §4.6: "remove the entry at `id` if present". -/
def lseqDeleteId {V : Type} (s : LSeqS V) (target : IdentL) : LSeqS V :=
  ⟨s.siblings.filter (fun e => decide (e.1 ≠ target)), s.clock⟩

/-- `CmRDT::apply` for `LSeq` (src/src/lseq/mod.rs): an `Insert` whose
clock is empty returns early, otherwise the value is allocated between `p`
and `q`; a `Delete` ignores its clock, calls `delete_id` and discards its
result. -/
def lseqApply {V : Type} (s : LSeqS V) : LSeqOp V → LSeqS V
  | .Insert clock value p q =>
    if vcIsEmpty clock then s else lseqAllocId s p q clock value
  | .Delete _ target => lseqDeleteId s target

/-- One direction of `PartialEq for LSeq` (src/src/lseq/mod.rs): every
entry's originating dot occurs among the other state's dots (the loop
returns `false` on a zero count; identifiers and values are not
inspected). -/
def lseqContainsDots {V : Type}
    (xs ys : List (IdentL × (DotL × V))) : Bool :=
  xs.all (fun e =>
    !(decide ((ys.filter (fun f => decide (f.2.1 = e.2.1))).length = 0)))

/-- `PartialEq for LSeq` (src/src/lseq/mod.rs), sanity asserts ignored. -/
def lseqEqB {V : Type} (s t : LSeqS V) : Bool :=
  lseqContainsDots s.siblings t.siblings &&
    lseqContainsDots t.siblings s.siblings

/-- C4: the claim says every op with an empty causal clock — including an
LSeq `Delete` — is a silent no-op.  The `Delete` arm of `LSeq::apply`
never looks at the op clock: a `Delete` carrying the empty clock but a
live identifier removes that entry, changing the state. -/
theorem C4_counterexample :
    lseqApply (⟨[([(5, 1)], ((5, 1), 7))], [(5, 1)]⟩ : LSeqS Nat)
        (.Delete [] [(5, 1)]) ≠
      (⟨[([(5, 1)], ((5, 1), 7))], [(5, 1)]⟩ : LSeqS Nat) ∧
    (lseqApply (⟨[([(5, 1)], ((5, 1), 7))], [(5, 1)]⟩ : LSeqS Nat)
        (.Delete [] [(5, 1)])).siblings = [] := by
  constructor
  · decide
  · rfl

/-- C4 (amended): an op carrying an empty causal clock is a silent no-op
for `MVReg::apply` (`Put`) and for the `Insert` arm of `LSeq::apply`,
whose bodies both return early on `clock.is_empty()`; the `Delete` arm of
`LSeq::apply` carries no such guard and deletes regardless of its clock. -/
theorem C4_amended :
    (∀ (V : Type) (r : MVRegS V) (v : V), mvApply r (.Put [] v) = r) ∧
      (∀ (V : Type) (s : LSeqS V) (v : V) (p q : Option IdentL),
        lseqApply s (.Insert [] v p q) = s) := by
  constructor
  · intro V r v
    rfl
  · intro V s v p q
    rfl

/-- C8: the claim says an LSeq `Delete` whose identifier is not present is
surfaced to the host as an `UnknownIdentifier` error.  `LSeq::apply`
returns unit and discards the result of `delete_id`: on a sequence holding
only the identifier `[(1,1)]`, deleting the absent identifier `[(9,9)]`
returns normally with the state unchanged — nothing is surfaced. -/
theorem C8_counterexample :
    lseqApply (⟨[([(1, 1)], ((1, 1), 4))], [(1, 1)]⟩ : LSeqS Nat)
        (.Delete [(2, 1)] [(9, 9)]) =
      (⟨[([(1, 1)], ((1, 1), 4))], [(1, 1)]⟩ : LSeqS Nat) := by
  decide

/-- C8 (amended): applying a `Delete` for an identifier not present in the
sequence is a silent no-op — `apply` returns unit, discards `delete_id`'s
result, and leaves the state unchanged; no error reaches the host. -/
theorem C8_amended {V : Type} (s : LSeqS V) (c : VClockL) (target : IdentL)
    (habs : ∀ e ∈ s.siblings, e.1 ≠ target) :
    lseqApply s (.Delete c target) = s := by
  show lseqDeleteId s target = s
  unfold lseqDeleteId
  have : s.siblings.filter (fun e => decide (e.1 ≠ target)) = s.siblings :=
    List.filter_eq_self.mpr (fun e he => decide_eq_true (habs e he))
  rw [this]

/-- C8 witness: the amended statement evaluated at a concrete sequence. -/
theorem C8_witness :
    lseqApply (⟨[([(1, 1)], ((1, 1), 4))], [(1, 1)]⟩ : LSeqS Nat)
        (.Delete [(2, 1)] [(3, 3)]) =
      (⟨[([(1, 1)], ((1, 1), 4))], [(1, 1)]⟩ : LSeqS Nat) :=
  C8_amended (⟨[([(1, 1)], ((1, 1), 4))], [(1, 1)]⟩ : LSeqS Nat)
    [(2, 1)] [(3, 3)] (by decide)

theorem lseqContainsDots_iff {V : Type}
    {xs ys : List (IdentL × (DotL × V))} :
    lseqContainsDots xs ys = true ↔
      ∀ e ∈ xs, ∃ f ∈ ys, f.2.1 = e.2.1 := by
  unfold lseqContainsDots
  rw [List.all_eq_true]
  constructor
  · intro h e he
    have h1 := h e he
    rw [Bool.not_eq_true', decide_eq_false_iff_not, List.length_eq_zero,
      List.filter_eq_nil_iff] at h1
    push_neg at h1
    obtain ⟨f, hf, hdec⟩ := h1
    exact ⟨f, hf, of_decide_eq_true hdec⟩
  · intro h e he
    obtain ⟨f, hf, hfe⟩ := h e he
    rw [Bool.not_eq_true', decide_eq_false_iff_not, List.length_eq_zero,
      List.filter_eq_nil_iff]
    push_neg
    exact ⟨f, hf, decide_eq_true hfe⟩

/-- C9: the claim says two LSeq states that differ in an entry's
identifier or value are unequal even when they carry the same dots.  The
source's `PartialEq` compares only the originating dots: these two states
share the single dot `(7,1)` but disagree on both the identifier and the
value, and still compare equal. -/
theorem C9_counterexample :
    lseqEqB (⟨[([(0, 1)], ((7, 1), 10))], []⟩ : LSeqS Nat)
        (⟨[([(0, 2)], ((7, 1), 20))], []⟩ : LSeqS Nat) = true ∧
      (⟨[([(0, 1)], ((7, 1), 10))], []⟩ : LSeqS Nat).siblings ≠
        (⟨[([(0, 2)], ((7, 1), 20))], []⟩ : LSeqS Nat).siblings := by
  constructor
  · rfl
  · decide

/-- C9 (amended): LSeq equality holds exactly when each state's
originating dots all occur among the other's — identifiers, values and
the global clock are not compared at all. -/
theorem C9_amended {V : Type} (s t : LSeqS V) :
    lseqEqB s t = true ↔
      ((∀ e ∈ s.siblings, ∃ f ∈ t.siblings, f.2.1 = e.2.1) ∧
        (∀ f ∈ t.siblings, ∃ e ∈ s.siblings, e.2.1 = f.2.1)) := by
  unfold lseqEqB
  rw [Bool.and_eq_true, lseqContainsDots_iff, lseqContainsDots_iff]

theorem mvMerge_mem_comm {V : Type} {r1 r2 : MVRegS V}
    (hc : ∀ e ∈ r1.vals ++ r2.vals, ∀ f ∈ r1.vals ++ r2.vals,
      e.1 = f.1 → e.2 = f.2) :
    ∀ x ∈ (mvMerge r1 r2).vals, x ∈ (mvMerge r2 r1).vals := by
  intro x hx
  rcases mem_mvMerge_cases hx with hk | ⟨hxo, hnd, _⟩
  · -- an entry of r1 kept because nothing in r2 dominates it:
    -- in the reversed merge some entry with its clock survives, and
    -- compatibility pins that entry's value
    obtain ⟨hx1, hnd1⟩ := mem_mvKeep.mp hk
    obtain ⟨g, hg, hgx⟩ := clock_mem_mvMerge_of_right hx1 hnd1
    have hgu : g ∈ r1.vals ++ r2.vals := by
      -- in `mvMerge r2 r1` the kept side is r2 and the pushed side r1
      rcases mem_mvMerge_cases hg with hk' | ⟨hgo, _, _⟩
      · exact List.mem_append_right _ ((mem_mvKeep.mp hk').1)
      · exact List.mem_append_left _ hgo
    have hxu : x ∈ r1.vals ++ r2.vals := List.mem_append_left _ hx1
    have hval : g.2 = x.2 := hc g ?_ x hxu hgx
    · have hgeq : g = x := Prod.ext hgx hval
      exact hgeq ▸ hg
    · rcases List.mem_append.mp hgu with h | h
      · exact List.mem_append_left _ h
      · exact List.mem_append_right _ h
  · -- an entry of r2 not dominated by r1: it is kept by the first loop
    -- of the reversed merge
    exact mem_mvMerge_of_left hxo hnd

/-- C6: for compatible registers — no two entries across the pair with
equal clock and different value — `merge` is commutative up to the
register's own `PartialEq`: `r1.merge(r2) == r2.merge(r1)`. -/
theorem C6_merge_commutative {V : Type} [DecidableEq V] (r1 r2 : MVRegS V)
    (hc : ∀ e ∈ r1.vals ++ r2.vals, ∀ f ∈ r1.vals ++ r2.vals,
      e.1 = f.1 → e.2 = f.2) :
    mvEqB (mvMerge r1 r2) (mvMerge r2 r1) = true := by
  rw [mvEqB_iff]
  have hc' : ∀ e ∈ r2.vals ++ r1.vals, ∀ f ∈ r2.vals ++ r1.vals,
      e.1 = f.1 → e.2 = f.2 := by
    intro e he f hf
    refine hc e ?_ f ?_
    · rcases List.mem_append.mp he with h | h
      · exact List.mem_append_right _ h
      · exact List.mem_append_left _ h
    · rcases List.mem_append.mp hf with h | h
      · exact List.mem_append_right _ h
      · exact List.mem_append_left _ h
  exact ⟨mvMerge_mem_comm hc, mvMerge_mem_comm hc'⟩

/-- C6 witness: merge commutativity evaluated at a concrete compatible
pair of registers with concurrent entries. -/
theorem C6_witness :
    mvEqB
      (mvMerge (⟨[([(0, 1)], 1)]⟩ : MVRegS Nat) ⟨[([(1, 1)], 2)]⟩)
      (mvMerge (⟨[([(1, 1)], 2)]⟩ : MVRegS Nat) ⟨[([(0, 1)], 1)]⟩) = true :=
  C6_merge_commutative (⟨[([(0, 1)], 1)]⟩ : MVRegS Nat) ⟨[([(1, 1)], 2)]⟩
    (by decide)

theorem vcSubtract_empty {c : VClockL} (hwf : VCwf c) :
    vcSubtract c [] = c := by
  apply List.filter_eq_self.mpr
  intro p hp
  have := hwf.2 p hp
  simp [vcGet]
  omega

theorem foldClock_ge_acc {V : Type} :
    ∀ (l : List (VClockL × V)) (init : VClockL), VCwf init →
      (∀ e ∈ l, VCwf e.1) →
      VCwf (l.foldl (fun acc e => vcMerge acc e.1) init) ∧
        ∀ a, vcGet init a ≤
          vcGet (l.foldl (fun acc e => vcMerge acc e.1) init) a := by
  intro l
  induction l with
  | nil => intro init hinit _; exact ⟨hinit, fun a => Nat.le_refl _⟩
  | cons e t ih =>
    intro init hinit hl
    have hwe : VCwf e.1 := hl e (List.mem_cons_self ..)
    have hmwf : VCwf (vcMerge init e.1) := vcMerge_wf hinit hwe.2
    have hrec := ih (vcMerge init e.1) hmwf
      (fun f hf => hl f (List.mem_cons_of_mem _ hf))
    refine ⟨hrec.1, fun a => ?_⟩
    have h1 : vcGet init a ≤ vcGet (vcMerge init e.1) a := by
      rw [vcGet_merge hinit hwe a]
      omega
    exact Nat.le_trans h1 (hrec.2 a)

theorem foldClock_ge_mem {V : Type} :
    ∀ (l : List (VClockL × V)) (init : VClockL), VCwf init →
      (∀ e ∈ l, VCwf e.1) → ∀ e ∈ l, ∀ a,
        vcGet e.1 a ≤ vcGet (l.foldl (fun acc f => vcMerge acc f.1) init) a := by
  intro l
  induction l with
  | nil => intro init _ _ e he; cases he
  | cons f t ih =>
    intro init hinit hl e he a
    have hwf : VCwf f.1 := hl f (List.mem_cons_self ..)
    have hmwf : VCwf (vcMerge init f.1) := vcMerge_wf hinit hwf.2
    rcases List.mem_cons.mp he with rfl | hmem
    · have h1 : vcGet e.1 a ≤ vcGet (vcMerge init e.1) a := by
        rw [vcGet_merge hinit hwf a]
        omega
      exact Nat.le_trans h1
        ((foldClock_ge_acc t (vcMerge init e.1) hmwf
          (fun g hg => hl g (List.mem_cons_of_mem _ hg))).2 a)
    · exact ih (vcMerge init f.1) hmwf
        (fun g hg => hl g (List.mem_cons_of_mem _ hg)) e hmem a

/-- C7: truncating with the empty clock leaves the register unchanged,
and truncating with the join of all entry clocks empties it, for every
register whose entry clocks are canonical and non-empty (as every
reachable register's are). -/
theorem C7_truncation {V : Type} (r : MVRegS V)
    (hwf : ∀ e ∈ r.vals, VCwf e.1 ∧ e.1 ≠ []) :
    mvTruncate r [] = r ∧ mvTruncate r (mvClock r) = MVRegS.new := by
  constructor
  · unfold mvTruncate
    have hid : r.vals.filterMap (fun e =>
        let c := vcSubtract e.1 []
        if vcIsEmpty c then none else some (c, e.2)) = r.vals := by
      have hcongr : r.vals.filterMap (fun e =>
          let c := vcSubtract e.1 []
          if vcIsEmpty c then none else some (c, e.2)) =
            r.vals.filterMap some := by
        apply List.filterMap_congr
        intro e he
        have hsub : vcSubtract e.1 [] = e.1 := vcSubtract_empty (hwf e he).1
        simp only [hsub, vcIsEmpty_eq_false (hwf e he).2, Bool.false_eq_true,
          if_false]
      rw [hcongr, List.filterMap_some]
    rw [hid]
  · unfold mvTruncate
    have hnil : r.vals.filterMap (fun e =>
        let c := vcSubtract e.1 (mvClock r)
        if vcIsEmpty c then none else some (c, e.2)) = [] := by
      rw [List.filterMap_eq_nil_iff]
      intro e he
      have hsub : vcSubtract e.1 (mvClock r) = [] := by
        rw [vcSubtract, List.filter_eq_nil_iff]
        intro p hp
        have hle : p.2 ≤ vcGet (mvClock r) p.1 := by
          have hgp : vcGet e.1 p.1 = p.2 := vcGet_eq_of_mem (hwf e he).1 hp
          have := foldClock_ge_mem r.vals [] ⟨List.Pairwise.nil, by simp⟩
            (fun f hf => (hwf f hf).1) e he p.1
          rw [hgp] at this
          exact this
        simp [hle]
      simp only [hsub]
      rfl
    rw [hnil]
    rfl

/-- C7 witness: the truncation laws evaluated at a concrete two-entry
register with concurrent entries. -/
theorem C7_witness :
    mvTruncate (⟨[([(0, 2), (1, 1)], 5), ([(2, 1)], 7)]⟩ : MVRegS Nat) [] =
        (⟨[([(0, 2), (1, 1)], 5), ([(2, 1)], 7)]⟩ : MVRegS Nat) ∧
      mvTruncate (⟨[([(0, 2), (1, 1)], 5), ([(2, 1)], 7)]⟩ : MVRegS Nat)
        (mvClock (⟨[([(0, 2), (1, 1)], 5), ([(2, 1)], 7)]⟩ : MVRegS Nat)) =
          MVRegS.new :=
  C7_truncation (⟨[([(0, 2), (1, 1)], 5), ([(2, 1)], 7)]⟩ : MVRegS Nat)
    (by decide)

/-- The MVReg state invariant: pairwise ≤-incomparable entry clocks, all
canonical. -/
def MVInv {V : Type} (r : MVRegS V) : Prop :=
  r.vals.Pairwise (fun e f => ¬vcLeB e.1 f.1 ∧ ¬vcLeB f.1 e.1) ∧
    ∀ e ∈ r.vals, VCwf e.1

theorem mvApply_inv {V : Type} {r : MVRegS V} {c : VClockL} {v : V}
    (hr : MVInv r) (hc : VCwf c) : MVInv (mvApply r (.Put c v)) := by
  by_cases hemp : vcIsEmpty c = true
  · simpa only [mvApply, if_pos hemp] using hr
  · simp only [mvApply, if_neg hemp]
    set kept := r.vals.filter (fun e => !(vcLeB e.1 c)) with hkept
    have hkpw : kept.Pairwise (fun e f => ¬vcLeB e.1 f.1 ∧ ¬vcLeB f.1 e.1) :=
      List.Pairwise.filter _ hr.1
    have hkwf : ∀ e ∈ kept, VCwf e.1 := fun e he =>
      hr.2 e (List.mem_filter.mp he).1
    by_cases hall : kept.all (fun e => !(vcLtB c e.1)) = true
    · rw [if_pos hall]
      constructor
      · rw [List.pairwise_append]
        refine ⟨hkpw, List.pairwise_singleton .., ?_⟩
        intro a ha b hb
        have hb' : b = (c, v) := List.mem_singleton.mp hb
        have hfa : ¬vcLeB a.1 c := by
          have := (List.mem_filter.mp ha).2
          simp only [Bool.not_eq_true'] at this
          simp [this]
        constructor
        · rw [hb']
          exact hfa
        · rw [hb']
          intro hle
          have hlt := List.all_eq_true.mp hall a ha
          simp only [Bool.not_eq_true'] at hlt
          rw [vcLtB, hle] at hlt
          simp at hlt
          exact hfa hlt
      · intro e he
        rcases List.mem_append.mp he with h | h
        · exact hkwf e h
        · rw [List.mem_singleton.mp h]
          exact hc
    · rw [if_neg hall]
      exact ⟨hkpw, hkwf⟩

theorem mvMergeFold_inv {V : Type} {r o : MVRegS V}
    (hr : MVInv r) (ho : MVInv o) :
    ∀ (l : List (VClockL × V)), (∀ x ∈ l, x ∈ o.vals) →
    ∀ (acc : List (VClockL × V)),
      acc.Pairwise (fun e f => ¬vcLeB e.1 f.1 ∧ ¬vcLeB f.1 e.1) →
      (∀ g ∈ acc, VCwf g.1) →
      (∀ g ∈ acc, (g ∈ r.vals ∧ ∀ f ∈ o.vals, ¬vcLtB g.1 f.1) ∨
        (g ∈ o.vals ∧ ∀ e ∈ r.vals, ¬vcLtB g.1 e.1)) →
      (l.foldl (mvMergeStep r.vals) acc).Pairwise
          (fun e f => ¬vcLeB e.1 f.1 ∧ ¬vcLeB f.1 e.1) ∧
        ∀ g ∈ l.foldl (mvMergeStep r.vals) acc, VCwf g.1 := by
  intro l
  induction l with
  | nil =>
    intro _ acc hpw hwf _
    exact ⟨hpw, hwf⟩
  | cons f t ih =>
    intro hl acc hpw hwf hsrc
    have hfo : f ∈ o.vals := hl f (List.mem_cons_self ..)
    have hl' : ∀ x ∈ t, x ∈ o.vals := fun x hx => hl x (List.mem_cons_of_mem _ hx)
    -- analyze the step applied to the accumulator
    by_cases h1 : (r.vals.filter (fun e => vcLtB f.1 e.1)).length = 0
    · by_cases h2 : acc.all (fun g => decide (g.1 ≠ f.1)) = true
      · -- the entry is pushed: establish the three invariants for acc ++ [f]
        have hstep : mvMergeStep r.vals acc f = acc ++ [f] := by
          unfold mvMergeStep
          rw [if_pos h1, if_pos h2]
        have hnd : ∀ e ∈ r.vals, ¬vcLtB f.1 e.1 := filterLen_zero_iff.mp h1
        have hnew : ∀ g ∈ acc, g.1 ≠ f.1 := fun g hg =>
          of_decide_eq_true (List.all_eq_true.mp h2 g hg)
        have hpw' : (acc ++ [f]).Pairwise
            (fun e g => ¬vcLeB e.1 g.1 ∧ ¬vcLeB g.1 e.1) := by
          rw [List.pairwise_append]
          refine ⟨hpw, List.pairwise_singleton .., ?_⟩
          intro g hg b hb
          rw [List.mem_singleton.mp hb]
          have hgwf : VCwf g.1 := hwf g hg
          have hfwf : VCwf f.1 := ho.2 f hfo
          rcases hsrc g hg with ⟨hgr, hgnd⟩ | ⟨hgo, hgnd⟩
          · -- g survives from r, f comes from o: mutual non-domination plus
            -- distinct clocks forces incomparability
            have hgf : ¬vcLtB g.1 f.1 := hgnd f hfo
            have hfg : ¬vcLtB f.1 g.1 := hnd g hgr
            constructor
            · intro hle
              rw [vcLtB, hle] at hgf
              simp at hgf
              have := vc_antisymm hgwf hfwf hle hgf
              exact hnew g hg this
            · intro hle
              rw [vcLtB, hle] at hfg
              simp at hfg
              have := vc_antisymm hgwf hfwf hfg hle
              exact hnew g hg this
          · -- both g and f are entries of o: its own invariant applies
            have hgne : g ≠ f := by
              intro hgf
              exact hnew g hg (congrArg Prod.fst hgf)
            have hsymm : Symmetric
                (fun e g : VClockL × V => ¬vcLeB e.1 g.1 ∧ ¬vcLeB g.1 e.1) :=
              fun e g h => ⟨h.2, h.1⟩
            exact ho.1.forall hsymm hgo hfo hgne
        have hwf' : ∀ g ∈ acc ++ [f], VCwf g.1 := by
          intro g hg
          rcases List.mem_append.mp hg with h | h
          · exact hwf g h
          · rw [List.mem_singleton.mp h]
            exact ho.2 f hfo
        have hsrc' : ∀ g ∈ acc ++ [f],
            (g ∈ r.vals ∧ ∀ f' ∈ o.vals, ¬vcLtB g.1 f'.1) ∨
              (g ∈ o.vals ∧ ∀ e ∈ r.vals, ¬vcLtB g.1 e.1) := by
          intro g hg
          rcases List.mem_append.mp hg with h | h
          · exact hsrc g h
          · rw [List.mem_singleton.mp h]
            exact Or.inr ⟨hfo, hnd⟩
        have := ih hl' (acc ++ [f]) hpw' hwf' hsrc'
        rw [List.foldl_cons, hstep]
        exact this
      · have hstep : mvMergeStep r.vals acc f = acc := by
          unfold mvMergeStep
          rw [if_pos h1, if_neg h2]
        rw [List.foldl_cons, hstep]
        exact ih hl' acc hpw hwf hsrc
    · have hstep : mvMergeStep r.vals acc f = acc := by
        unfold mvMergeStep
        rw [if_neg h1]
      rw [List.foldl_cons, hstep]
      exact ih hl' acc hpw hwf hsrc

theorem mvMerge_inv {V : Type} {r o : MVRegS V}
    (hr : MVInv r) (ho : MVInv o) : MVInv (mvMerge r o) := by
  have hinit1 : (mvKeep r o).Pairwise
      (fun e f => ¬vcLeB e.1 f.1 ∧ ¬vcLeB f.1 e.1) :=
    List.Pairwise.filter _ hr.1
  have hinit2 : ∀ g ∈ mvKeep r o, VCwf g.1 := fun g hg =>
    hr.2 g (mem_mvKeep.mp hg).1
  have hinit3 : ∀ g ∈ mvKeep r o,
      (g ∈ r.vals ∧ ∀ f ∈ o.vals, ¬vcLtB g.1 f.1) ∨
        (g ∈ o.vals ∧ ∀ e ∈ r.vals, ¬vcLtB g.1 e.1) := fun g hg =>
    Or.inl (mem_mvKeep.mp hg)
  have := mvMergeFold_inv hr ho o.vals (fun _ h => h) (mvKeep r o)
    hinit1 hinit2 hinit3
  exact ⟨this.1, this.2⟩

/-- Register states reachable from `MVReg::new` through `apply` and
`merge`; op clocks are canonical because `VClock` maintains sortedness and
drops zero entries by construction. -/
inductive ReachAM {V : Type} : MVRegS V → Prop where
  | new : ReachAM MVRegS.new
  | apply (r : MVRegS V) (c : VClockL) (v : V) :
      ReachAM r → VCwf c → ReachAM (mvApply r (.Put c v))
  | merge (r s : MVRegS V) : ReachAM r → ReachAM s → ReachAM (mvMerge r s)

/-- Register states reachable from `MVReg::new` through `apply`, `merge`
and `truncate` (the host may truncate with any canonical stability
clock). -/
inductive ReachMV {V : Type} : MVRegS V → Prop where
  | new : ReachMV MVRegS.new
  | apply (r : MVRegS V) (c : VClockL) (v : V) :
      ReachMV r → VCwf c → ReachMV (mvApply r (.Put c v))
  | merge (r s : MVRegS V) : ReachMV r → ReachMV s → ReachMV (mvMerge r s)
  | trunc (r : MVRegS V) (k : VClockL) :
      ReachMV r → VCwf k → ReachMV (mvTruncate r k)

/-- A register assembled by two replicas that each observed the other's
first write and then wrote again, merged and finally truncated with the
stability clock `{1 ↦ 5}`. -/
def mvRegAfterTrunc : MVRegS Nat :=
  mvTruncate
    (mvMerge
      (mvApply
        (mvMerge (mvApply MVRegS.new (.Put [(0, 1)] 10))
          (mvApply MVRegS.new (.Put [(1, 1)] 20)))
        (.Put [(0, 2), (1, 1)] 30))
      (mvApply
        (mvMerge (mvApply MVRegS.new (.Put [(1, 1)] 20))
          (mvApply MVRegS.new (.Put [(0, 1)] 10)))
        (.Put [(0, 1), (1, 2)] 40)))
    [(1, 5)]

/-- C5: the claim includes `truncate` among the operations preserving the
pairwise-incomparability invariant.  Truncation can strip exactly the
components two concurrent clocks disagree on: this reachable register
(via apply, merge and one truncate) retains the entries
`([(0,2)], 30)` and `([(0,1)], 40)`, whose clocks are ≤-comparable. -/
theorem C5_counterexample :
    ReachMV mvRegAfterTrunc ∧
      ¬ mvRegAfterTrunc.vals.Pairwise
          (fun e f => ¬vcLeB e.1 f.1 ∧ ¬vcLeB f.1 e.1) := by
  constructor
  · exact ReachMV.trunc _ _
      (ReachMV.merge _ _
        (ReachMV.apply _ _ _
          (ReachMV.merge _ _
            (ReachMV.apply _ _ _ ReachMV.new (by decide))
            (ReachMV.apply _ _ _ ReachMV.new (by decide)))
          (by decide))
        (ReachMV.apply _ _ _
          (ReachMV.merge _ _
            (ReachMV.apply _ _ _ ReachMV.new (by decide))
            (ReachMV.apply _ _ _ ReachMV.new (by decide)))
          (by decide)))
      (by decide)
  · decide

/-- C5 (amended): the pairwise-incomparability invariant — no two entry
clocks of a reachable register are ≤-comparable — holds for every state
reachable through `apply` and `merge`, all of whose entry clocks are
moreover canonical; `truncate` does not preserve it. -/
theorem C5_amended {V : Type} (r : MVRegS V) (h : ReachAM r) :
    r.vals.Pairwise (fun e f => ¬vcLeB e.1 f.1 ∧ ¬vcLeB f.1 e.1) ∧
      ∀ e ∈ r.vals, VCwf e.1 := by
  induction h with
  | new => exact ⟨List.Pairwise.nil, by simp [MVRegS.new]⟩
  | apply r c v _ hc ih => exact mvApply_inv ih hc
  | merge r s _ _ ih1 ih2 => exact mvMerge_inv ih1 ih2

/-- C5 witness: the amended invariant evaluated on a register reached by
two applies. -/
theorem C5_witness :
    (mvApply (mvApply (MVRegS.new (V := Nat)) (.Put [(0, 1)] 10))
        (.Put [(1, 1)] 20)).vals.Pairwise
      (fun e f => ¬vcLeB e.1 f.1 ∧ ¬vcLeB f.1 e.1) :=
  (C5_amended _
    (ReachAM.apply _ _ _
      (ReachAM.apply _ _ _ ReachAM.new (by decide)) (by decide))).1

theorem filterEq_length_nodup {α : Type} [DecidableEq α] {ys : List α}
    (h : ys.Nodup) (e : α) :
    (ys.filter (fun f => decide (f = e))).length =
      if e ∈ ys then 1 else 0 := by
  induction ys with
  | nil => simp
  | cons y t ih =>
    have hyt : y ∉ t := (List.nodup_cons.mp h).1
    have hnd : t.Nodup := (List.nodup_cons.mp h).2
    by_cases hy : y = e
    · have hmem : e ∈ y :: t := by rw [← hy]; exact List.mem_cons_self ..
      have hnt : e ∉ t := by rw [← hy]; exact hyt
      simp only [List.filter_cons, decide_eq_true hy]
      rw [if_pos trivial, if_pos hmem, List.length_cons, ih hnd, if_neg hnt]
    · have hdec : (decide (y = e)) = false := decide_eq_false hy
      simp only [List.filter_cons, hdec]
      rw [if_neg Bool.false_ne_true, ih hnd]
      by_cases he : e ∈ t
      · rw [if_pos he, if_pos (List.mem_cons_of_mem _ he)]
      · rw [if_neg he, if_neg (fun hm => by
          rcases List.mem_cons.mp hm with hh | hh
          · exact hy hh.symm
          · exact he hh)]

theorem mvEntriesChecked_eq {V : Type} [DecidableEq V]
    {ys : List (VClockL × V)} (h : ys.Nodup) :
    ∀ xs, mvEntriesChecked xs ys = some (mvContainsAll xs ys) := by
  intro xs
  induction xs with
  | nil => rfl
  | cons e t ih =>
    have hlen := filterEq_length_nodup h e
    by_cases hmem : e ∈ ys
    · rw [if_pos hmem] at hlen
      have h0 : ¬(ys.filter (fun f => decide (f = e))).length = 0 := by
        omega
      simp only [mvEntriesChecked, if_neg h0, if_pos hlen, ih]
      congr 1
      simp only [mvContainsAll, List.all_cons, Bool.not_eq_true',
        decide_eq_false_iff_not]
      rw [decide_eq_false h0]
      simp [mvContainsAll]
    · rw [if_neg hmem] at hlen
      simp only [mvEntriesChecked, if_pos hlen]
      have : mvContainsAll (e :: t) ys = false := by
        rw [Bool.eq_false_iff]
        intro hc
        exact hmem (mvContainsAll_iff.mp hc e (List.mem_cons_self ..))
      rw [this]

/-- C10: on registers without duplicate `(clock, value)` entries — which
includes every state reachable through `new`, `apply` and `merge` — the
`PartialEq` loops never hit the `assert_eq!(num_found, 1)` panic and
decide exactly mutual containment of the two entry lists. -/
theorem C10_eq_no_panic {V : Type} [DecidableEq V] (r1 r2 : MVRegS V)
    (h1 : r1.vals.Nodup) (h2 : r2.vals.Nodup) :
    mvEqChecked r1 r2 = some (mvEqB r1 r2) ∧
      (mvEqB r1 r2 = true ↔
        ((∀ e ∈ r1.vals, e ∈ r2.vals) ∧ (∀ e ∈ r2.vals, e ∈ r1.vals))) ∧
      ∀ s : MVRegS V, ReachAM s → s.vals.Nodup := by
  refine ⟨?_, mvEqB_iff, ?_⟩
  · unfold mvEqChecked
    rw [mvEntriesChecked_eq h2 r1.vals]
    by_cases hc : mvContainsAll r1.vals r2.vals = true
    · rw [hc]
      rw [mvEntriesChecked_eq h1 r2.vals]
      unfold mvEqB
      rw [hc, Bool.true_and]
    · rw [Bool.not_eq_true] at hc
      rw [hc]
      unfold mvEqB
      rw [hc, Bool.false_and]
  · intro s hs
    -- reachable states have pairwise incomparable, canonical clocks,
    -- so no two entries coincide
    have hstate : s.vals.Pairwise
        (fun e f => ¬vcLeB e.1 f.1 ∧ ¬vcLeB f.1 e.1) ∧
          ∀ e ∈ s.vals, VCwf e.1 := by
      induction hs with
      | new => exact ⟨List.Pairwise.nil, by simp [MVRegS.new]⟩
      | apply r c v _ hc ih => exact mvApply_inv ih hc
      | merge r t _ _ ih1 ih2 => exact mvMerge_inv ih1 ih2
    have hne : s.vals.Pairwise (fun e f => e ≠ f) := by
      apply List.Pairwise.imp_of_mem ?_ hstate.1
      intro a b ha _ hab heq
      have hwfa : VCwf a.1 := hstate.2 a ha
      have : vcLeB a.1 b.1 = true := by
        rw [← heq]
        exact vcLeB_refl hwfa
      exact hab.1 this
    exact List.Pairwise.imp (fun h => h) hne

/-- C10 witness: the equality characterization at a register pair with
the same entries in opposite orders, plus duplicate-freedom of a
concretely reached state. -/
theorem C10_witness :
    mvEqChecked (⟨[([(0, 1)], 1), ([(1, 1)], 2)]⟩ : MVRegS Nat)
        ⟨[([(1, 1)], 2), ([(0, 1)], 1)]⟩ =
      some (mvEqB (⟨[([(0, 1)], 1), ([(1, 1)], 2)]⟩ : MVRegS Nat)
        ⟨[([(1, 1)], 2), ([(0, 1)], 1)]⟩) ∧
      (mvApply (MVRegS.new (V := Nat)) (.Put [(0, 1)] 5)).vals.Nodup := by
  have h := C10_eq_no_panic (⟨[([(0, 1)], 1), ([(1, 1)], 2)]⟩ : MVRegS Nat)
    ⟨[([(1, 1)], 2), ([(0, 1)], 1)]⟩ (by decide) (by decide)
  exact ⟨h.1, h.2.2 _ (ReachAM.apply _ _ _ ReachAM.new (by decide))⟩

/-- Clock carried by an MVReg op. -/
def MVOp.clock {V : Type} : MVOp V → VClockL
  | .Put c _ => c

/-- Value carried by an MVReg op. -/
def MVOp.val {V : Type} : MVOp V → V
  | .Put _ v => v

/-- A register built by applying a history of ops to `MVReg::new`. -/
def mvApplyList {V : Type} (ops : List (MVOp V)) : MVRegS V :=
  ops.foldl mvApply MVRegS.new

theorem vcLeB_trans {u v w : VClockL}
    (h1 : vcLeB u v = true) (h2 : vcLeB v w = true) : vcLeB u w = true := by
  rw [vcLeB_iff] at *
  intro p hp
  have hpv := h1 p hp
  rcases Nat.eq_zero_or_pos (vcGet v p.1) with hz | hpos
  · omega
  · obtain ⟨q, hq, hq1, hq2⟩ := vcGet_pos_mem hpos
    have hqw := h2 q hq
    rw [hq1] at hqw
    omega

theorem mvEqB_refl {V : Type} [DecidableEq V] (r : MVRegS V) :
    mvEqB r r = true :=
  mvEqB_iff.mpr ⟨fun _ he => he, fun _ he => he⟩

/-- Invariants of a register with apply-only history `ops`: the state
invariant, every entry stems from an op, and every non-empty-clock op of
the history is dominated by some surviving entry. -/
def MVHist {V : Type} (ops : List (MVOp V)) (r : MVRegS V) : Prop :=
  MVInv r ∧
    (∀ e ∈ r.vals, ∃ o ∈ ops, e = (o.clock, o.val)) ∧
    (∀ o ∈ ops, vcIsEmpty o.clock = false →
      ∃ e ∈ r.vals, vcLeB o.clock e.1 = true)

theorem mvHist_step {V : Type} {past : List (MVOp V)} {r : MVRegS V}
    {c : VClockL} {v : V} (h : MVHist past r) (hc : VCwf c) :
    MVHist (past ++ [.Put c v]) (mvApply r (.Put c v)) := by
  obtain ⟨hinv, hsrc, hdom⟩ := h
  refine ⟨mvApply_inv hinv hc, ?_, ?_⟩
  · -- every entry of the new state stems from an op of the longer history
    by_cases hemp : vcIsEmpty c = true
    · simp only [mvApply, if_pos hemp]
      intro e he
      obtain ⟨o, ho, hoe⟩ := hsrc e he
      exact ⟨o, List.mem_append_left _ ho, hoe⟩
    · simp only [mvApply, if_neg hemp]
      by_cases hall : (r.vals.filter (fun e => !(vcLeB e.1 c))).all
          (fun e => !(vcLtB c e.1)) = true
      · rw [if_pos hall]
        intro e he
        rcases List.mem_append.mp he with hk | hlast
        · obtain ⟨o, ho, hoe⟩ := hsrc e (List.mem_filter.mp hk).1
          exact ⟨o, List.mem_append_left _ ho, hoe⟩
        · refine ⟨.Put c v, List.mem_append_right _ (List.mem_singleton.mpr rfl), ?_⟩
          rw [List.mem_singleton.mp hlast]
          rfl
      · rw [if_neg hall]
        intro e he
        obtain ⟨o, ho, hoe⟩ := hsrc e (List.mem_filter.mp he).1
        exact ⟨o, List.mem_append_left _ ho, hoe⟩
  · -- every non-trivial op of the longer history keeps a dominating entry
    intro o ho hoemp
    by_cases hemp : vcIsEmpty c = true
    · -- the new op was a no-op, so it must be an old one
      simp only [mvApply, if_pos hemp]
      rcases List.mem_append.mp ho with hpast | hnew
      · exact hdom o hpast hoemp
      · rw [List.mem_singleton.mp hnew] at hoemp
        rw [MVOp.clock] at hoemp
        rw [hemp] at hoemp
        cases hoemp
    · simp only [mvApply, if_neg hemp]
      by_cases hall : (r.vals.filter (fun e => !(vcLeB e.1 c))).all
          (fun e => !(vcLtB c e.1)) = true
      · rw [if_pos hall]
        rcases List.mem_append.mp ho with hpast | hnew
        · -- an old op: its dominator either survives or was covered by `c`
          obtain ⟨e, he, hle⟩ := hdom o hpast hoemp
          by_cases hkeep : vcLeB e.1 c = true
          · refine ⟨(c, v), List.mem_append_right _ (List.mem_singleton.mpr rfl),
              ?_⟩
            exact vcLeB_trans hle hkeep
          · refine ⟨e, List.mem_append_left _ ?_, hle⟩
            refine List.mem_filter.mpr ⟨he, ?_⟩
            simp [hkeep]
        · -- the op just applied: it is dominated by its own fresh entry
          rw [List.mem_singleton.mp hnew]
          refine ⟨(c, v), List.mem_append_right _ (List.mem_singleton.mpr rfl),
            ?_⟩
          rw [MVOp.clock]
          exact vcLeB_refl hc
      · rw [if_neg hall]
        -- some surviving entry strictly dominates `c`
        rw [List.all_eq_true] at hall
        push_neg at hall
        obtain ⟨f, hf, hflt⟩ := hall
        have hflt' : vcLtB c f.1 = true := by
          revert hflt
          cases vcLtB c f.1 <;> simp
        have hfle : vcLeB c f.1 = true := by
          rw [vcLtB, Bool.and_eq_true] at hflt'
          exact hflt'.1
        rcases List.mem_append.mp ho with hpast | hnew
        · obtain ⟨e, he, hle⟩ := hdom o hpast hoemp
          by_cases hkeep : vcLeB e.1 c = true
          · exact ⟨f, hf, vcLeB_trans (vcLeB_trans hle hkeep) hfle⟩
          · refine ⟨e, ?_, hle⟩
            refine List.mem_filter.mpr ⟨he, ?_⟩
            simp [hkeep]
        · rw [List.mem_singleton.mp hnew]
          refine ⟨f, hf, ?_⟩
          rw [MVOp.clock]
          exact hfle

theorem mvHist_fold {V : Type} :
    ∀ (ops : List (MVOp V)), (∀ o ∈ ops, VCwf o.clock) →
    ∀ (past : List (MVOp V)) (r : MVRegS V), MVHist past r →
      MVHist (past ++ ops) (ops.foldl mvApply r) := by
  intro ops
  induction ops with
  | nil =>
    intro _ past r h
    simpa using h
  | cons o t ih =>
    intro hwf past r h
    have hstep : MVHist (past ++ [o]) (mvApply r o) := by
      cases o with
      | Put c v => exact mvHist_step h (hwf _ (List.mem_cons_self ..))
    have := ih (fun o' ho' => hwf o' (List.mem_cons_of_mem _ ho'))
      (past ++ [o]) (mvApply r o) hstep
    rw [List.append_assoc] at this
    simpa using this

theorem mvHist_applyList {V : Type} (ops : List (MVOp V))
    (hwf : ∀ o ∈ ops, VCwf o.clock) : MVHist ops (mvApplyList ops) := by
  have hnew : MVHist ([] : List (MVOp V)) MVRegS.new := by
    refine ⟨⟨List.Pairwise.nil, by simp [MVRegS.new]⟩, ?_, ?_⟩
    · intro e he
      simp [MVRegS.new] at he
    · intro o ho
      cases ho
  simpa using mvHist_fold ops hwf [] MVRegS.new hnew

theorem mv_op_idem {V : Type} [DecidableEq V] (ops : List (MVOp V))
    (hwf : ∀ o ∈ ops, VCwf o.clock)
    (hcompat : ∀ o1 ∈ ops, ∀ o2 ∈ ops, o1.clock = o2.clock → o1.val = o2.val) :
    ∀ o ∈ ops, mvEqB (mvApply (mvApplyList ops) o) (mvApplyList ops) = true := by
  intro o ho
  obtain ⟨hinv, hsrc, hdom⟩ := mvHist_applyList ops hwf
  set r := mvApplyList ops with hr
  cases o with
  | Put c v =>
    have hcwf : VCwf c := hwf _ ho
    by_cases hemp : vcIsEmpty c = true
    · simp only [mvApply, if_pos hemp]
      exact mvEqB_refl r
    · have hbemp : vcIsEmpty (MVOp.clock (.Put c v)) = false := by
        revert hemp
        rw [MVOp.clock]
        cases vcIsEmpty c <;> simp
      obtain ⟨e, he, hle⟩ := hdom _ ho hbemp
      rw [MVOp.clock] at hle
      have hsymm : Symmetric
          (fun e f : VClockL × V => ¬vcLeB e.1 f.1 ∧ ¬vcLeB f.1 e.1) :=
        fun a b h => ⟨h.2, h.1⟩
      by_cases hstrict : ∃ f ∈ r.vals, vcLtB c f.1 = true
      · -- a surviving entry strictly dominates the op: apply is a no-op
        obtain ⟨f, hfmem, hflt⟩ := hstrict
        have hfle : vcLeB c f.1 = true := by
          rw [vcLtB, Bool.and_eq_true] at hflt
          exact hflt.1
        have hfnle : vcLeB f.1 c = false := by
          rw [vcLtB, Bool.and_eq_true] at hflt
          have := hflt.2
          revert this
          cases vcLeB f.1 c <;> simp
        have hfilter : r.vals.filter (fun g => !(vcLeB g.1 c)) = r.vals := by
          apply List.filter_eq_self.mpr
          intro g hg
          by_cases hgf : g = f
          · rw [hgf, hfnle]
            rfl
          · have hinc := hinv.1.forall hsymm hg hfmem hgf
            by_cases hgc : vcLeB g.1 c = true
            · exact absurd (vcLeB_trans hgc hfle) hinc.1
            · rw [Bool.not_eq_true] at hgc
              rw [hgc]
              rfl
        have hallr : (r.vals.all (fun g => !(vcLtB c g.1))) = false := by
          rw [Bool.eq_false_iff]
          intro hall
          have := List.all_eq_true.mp hall f hfmem
          rw [hflt] at this
          exact absurd this (by decide)
        simp only [mvApply, if_neg hemp, hfilter, hallr, Bool.false_eq_true,
          if_false]
        exact mvEqB_refl r
      · -- no strict dominator: the dominating entry carries exactly clock c
        push_neg at hstrict
        have hele : vcLeB e.1 c = true := by
          by_cases h : vcLeB e.1 c = true
          · exact h
          · exfalso
            have : vcLtB c e.1 = true := by
              rw [vcLtB, hle]
              rw [Bool.not_eq_true] at h
              rw [h]
              rfl
            exact absurd this (by simpa using hstrict e he)
        have hec : e.1 = c := vc_antisymm (hinv.2 e he) hcwf hele hle
        -- the dominating entry is the op's own entry
        obtain ⟨o', ho', hoe⟩ := hsrc e he
        have hoclock : o'.clock = c := by
          rw [hoe] at hec
          exact hec
        have hoval : o'.val = v := hcompat o' ho' (.Put c v) ho
          (by rw [hoclock]; rfl)
        have hev : e = (c, v) := by
          rw [hoe, hoclock, hoval]
        -- the second apply removes exactly `e` and appends it back
        have hall : (r.vals.filter (fun g => !(vcLeB g.1 c))).all
            (fun g => !(vcLtB c g.1)) = true := by
          rw [List.all_eq_true]
          intro g hg
          have hgr : g ∈ r.vals := (List.mem_filter.mp hg).1
          have := hstrict g hgr
          simp [this]
        simp only [mvApply, if_neg hemp, hall, if_pos rfl]
        rw [mvEqB_iff]
        constructor
        · intro x hx
          rcases List.mem_append.mp hx with hk | hlast
          · exact (List.mem_filter.mp hk).1
          · rw [List.mem_singleton.mp hlast, ← hev]
            exact he
        · intro x hx
          by_cases hxc : vcLeB x.1 c = true
          · have hxe : x = e := by
              by_contra hne
              have hinc := hinv.1.forall hsymm hx he hne
              rw [hec] at hinc
              exact hinc.1 hxc
            apply List.mem_append_right
            rw [hxe, hev]
            exact List.mem_singleton.mpr rfl
          · apply List.mem_append_left
            refine List.mem_filter.mpr ⟨hx, ?_⟩
            rw [Bool.not_eq_true] at hxc
            rw [hxc]
            rfl

/-- A sequence built by applying a history of ops to the empty LSeq. -/
def lseqApplyList {V : Type} (ops : List (LSeqOp V)) : LSeqS V :=
  ops.foldl lseqApply LSeqS.new

/-- Well-formedness of an LSeq op: an `Insert` carries a canonical
`VClock` (a `Delete`'s clock is never inspected). -/
def LOpWf {V : Type} : LSeqOp V → Prop
  | .Insert c _ _ _ => VCwf c
  | .Delete _ _ => True

instance {V : Type} : DecidablePred (LOpWf (V := V)) := fun o => by
  cases o <;> (unfold LOpWf; infer_instance)

/-- Causal readiness of the deletes of a history: when each `Delete` is
applied, its identifier is present (spec §5 requires causal delivery for
LSeq deletes). -/
def deletesReadyB {V : Type} : LSeqS V → List (LSeqOp V) → Bool
  | _, [] => true
  | s, o :: t =>
    (match o with
     | .Delete _ target => s.siblings.any (fun e => decide (e.1 = target))
     | .Insert _ _ _ _ => true) && deletesReadyB (lseqApply s o) t

/-- Invariant of reachable sequences: the global clock is canonical and
covers the clock-shaped identifier of every live entry. -/
def LGood {V : Type} (s : LSeqS V) : Prop :=
  VCwf s.clock ∧ ∀ e ∈ s.siblings, vcLeB e.1 s.clock = true

theorem lgood_step {V : Type} {s : LSeqS V} {o : LSeqOp V}
    (hs : LGood s) (ho : LOpWf o) : LGood (lseqApply s o) := by
  cases o with
  | Insert c v p q =>
    by_cases hemp : vcIsEmpty c = true
    · simpa [lseqApply, hemp] using hs
    · simp only [lseqApply, if_neg hemp]
      unfold lseqAllocId
      by_cases hdup : vcLeB c s.clock = true
      · rw [if_pos hdup]; exact hs
      · rw [if_neg hdup]
        have hcwf : VCwf c := ho
        refine ⟨vcMerge_wf hs.1 hcwf.2, ?_⟩
        intro e he
        rcases List.mem_cons.mp he with rfl | hmem
        · rw [vcLeB_iff]
          intro pp hpp
          show pp.2 ≤ vcGet (vcMerge s.clock c) pp.1
          rw [vcGet_merge hs.1 hcwf]
          have : vcGet c pp.1 = pp.2 := vcGet_eq_of_mem hcwf hpp
          omega
        · have hle := hs.2 e hmem
          rw [vcLeB_iff] at hle ⊢
          intro pp hpp
          show pp.2 ≤ vcGet (vcMerge s.clock c) pp.1
          rw [vcGet_merge hs.1 hcwf]
          have := hle pp hpp
          omega
  | Delete k target =>
    refine ⟨hs.1, ?_⟩
    intro e he
    exact hs.2 e ((List.mem_filter.mp he).1)

theorem lseq_clock_mono {V : Type} {s : LSeqS V} {o : LSeqOp V} {c : VClockL}
    (hs : LGood s) (ho : LOpWf o) (hc : vcLeB c s.clock = true) :
    vcLeB c (lseqApply s o).clock = true := by
  cases o with
  | Insert c' v p q =>
    by_cases hemp : vcIsEmpty c' = true
    · simpa [lseqApply, hemp] using hc
    · simp only [lseqApply, if_neg hemp]
      unfold lseqAllocId
      by_cases hdup : vcLeB c' s.clock = true
      · rw [if_pos hdup]; exact hc
      · rw [if_neg hdup]
        rw [vcLeB_iff] at hc ⊢
        intro pp hpp
        show pp.2 ≤ vcGet (vcMerge s.clock c') pp.1
        rw [vcGet_merge hs.1 ho]
        have := hc pp hpp
        omega
  | Delete k target => exact hc

theorem lseq_staysOut {V : Type} {s : LSeqS V} {o : LSeqOp V} {c : VClockL}
    (hc : vcLeB c s.clock = true)
    (habs : ∀ e ∈ s.siblings, e.1 ≠ c) :
    ∀ e ∈ (lseqApply s o).siblings, e.1 ≠ c := by
  cases o with
  | Insert c' v p q =>
    by_cases hemp : vcIsEmpty c' = true
    · simpa [lseqApply, hemp] using habs
    · simp only [lseqApply, if_neg hemp]
      unfold lseqAllocId
      by_cases hdup : vcLeB c' s.clock = true
      · rw [if_pos hdup]; exact habs
      · rw [if_neg hdup]
        intro e he
        rcases List.mem_cons.mp he with rfl | hmem
        · -- the freshly minted identifier cannot be an already-covered clock
          intro heq
          apply hdup
          show vcLeB c' s.clock = true
          rw [show c' = c from heq]
          exact hc
        · exact habs e hmem
  | Delete k target =>
    intro e he
    exact habs e (List.mem_filter.mp he).1

theorem lseq_fold_pres {V : Type} :
    ∀ (l : List (LSeqOp V)) (s : LSeqS V), LGood s → (∀ o ∈ l, LOpWf o) →
      LGood (l.foldl lseqApply s) ∧
        (∀ c, vcLeB c s.clock = true →
          vcLeB c (l.foldl lseqApply s).clock = true) ∧
        (∀ c, vcLeB c s.clock = true → (∀ e ∈ s.siblings, e.1 ≠ c) →
          ∀ e ∈ (l.foldl lseqApply s).siblings, e.1 ≠ c) := by
  intro l
  induction l with
  | nil => intro s hs _; exact ⟨hs, fun _ h => h, fun _ _ h => h⟩
  | cons o t ih =>
    intro s hs hwf
    have ho := hwf o (List.mem_cons_self ..)
    have h1 := lgood_step hs ho
    have hrec := ih (lseqApply s o) h1
      (fun o' h => hwf o' (List.mem_cons_of_mem _ h))
    refine ⟨hrec.1, ?_, ?_⟩
    · intro c hc
      exact hrec.2.1 c (lseq_clock_mono hs ho hc)
    · intro c hc habs
      exact hrec.2.2 c (lseq_clock_mono hs ho hc) (lseq_staysOut hc habs)

theorem deletesReady_split {V : Type} :
    ∀ (pre l : List (LSeqOp V)) (s : LSeqS V),
      deletesReadyB s (pre ++ l) = true →
      deletesReadyB (pre.foldl lseqApply s) l = true := by
  intro pre
  induction pre with
  | nil => intro l s h; exact h
  | cons o t ih =>
    intro l s h
    rw [List.cons_append] at h
    unfold deletesReadyB at h
    rw [Bool.and_eq_true] at h
    exact ih l (lseqApply s o) h.2

theorem lseqEqB_refl {V : Type} (s : LSeqS V) : lseqEqB s s = true := by
  unfold lseqEqB
  rw [Bool.and_eq_true]
  constructor <;>
    · rw [lseqContainsDots_iff]
      intro e he
      exact ⟨e, he, rfl⟩

theorem lseqApply_insert_skip {V : Type} {s : LSeqS V} {c : VClockL}
    {v : V} {p q : Option IdentL} (hemp : vcIsEmpty c = false)
    (h : vcLeB c s.clock = true) : lseqApply s (.Insert c v p q) = s := by
  simp only [lseqApply, hemp, Bool.false_eq_true, if_false]
  unfold lseqAllocId
  rw [if_pos h]

theorem lseq_op_idem {V : Type} (ops : List (LSeqOp V))
    (hwf : ∀ o ∈ ops, LOpWf o)
    (hready : deletesReadyB LSeqS.new ops = true) :
    ∀ o ∈ ops, lseqApply (lseqApplyList ops) o = lseqApplyList ops := by
  intro o ho
  obtain ⟨pre, post, rfl⟩ := List.append_of_mem ho
  have hgoodnew : LGood (LSeqS.new (V := V)) :=
    ⟨⟨List.Pairwise.nil, by simp [LSeqS.new]⟩, by simp [LSeqS.new]⟩
  have hwfpre : ∀ o' ∈ pre, LOpWf o' := fun o' h =>
    hwf o' (List.mem_append_left _ h)
  have hwfpost : ∀ o' ∈ post, LOpWf o' := fun o' h =>
    hwf o' (List.mem_append_right _ (List.mem_cons_of_mem _ h))
  have howf : LOpWf o := hwf o (List.mem_append_right _ (List.mem_cons_self ..))
  have hgood1 : LGood (pre.foldl lseqApply LSeqS.new) :=
    (lseq_fold_pres pre LSeqS.new hgoodnew hwfpre).1
  have hready1 : deletesReadyB (pre.foldl lseqApply LSeqS.new) (o :: post)
      = true :=
    deletesReady_split pre (o :: post) LSeqS.new hready
  have hsplit : lseqApplyList (pre ++ o :: post) =
      post.foldl lseqApply
        (lseqApply (pre.foldl lseqApply LSeqS.new) o) := by
    unfold lseqApplyList
    rw [List.foldl_append]
    rfl
  have hgood2 : LGood (lseqApply (pre.foldl lseqApply LSeqS.new) o) :=
    lgood_step hgood1 howf
  rw [hsplit]
  have hpres := lseq_fold_pres post
    (lseqApply (pre.foldl lseqApply LSeqS.new) o) hgood2 hwfpost
  cases o with
  | Insert c v p q =>
    by_cases hemp : vcIsEmpty c = true
    · simp [lseqApply, hemp]
    · have hc2 : vcLeB c
          (lseqApply (pre.foldl lseqApply LSeqS.new)
            (.Insert c v p q)).clock = true := by
        simp only [lseqApply, if_neg hemp]
        unfold lseqAllocId
        by_cases hdup : vcLeB c (pre.foldl lseqApply LSeqS.new).clock = true
        · rw [if_pos hdup]; exact hdup
        · rw [if_neg hdup]
          show vcLeB c (vcMerge (pre.foldl lseqApply LSeqS.new).clock c) = true
          rw [vcLeB_iff]
          intro pp hpp
          rw [vcGet_merge hgood1.1 howf]
          have : vcGet c pp.1 = pp.2 := vcGet_eq_of_mem howf hpp
          omega
      have hcr := hpres.2.1 c hc2
      exact lseqApply_insert_skip (Bool.not_eq_true _ ▸ hemp) hcr
  | Delete k target =>
    have hready_head : (pre.foldl lseqApply LSeqS.new).siblings.any
        (fun e => decide (e.1 = target)) = true := by
      unfold deletesReadyB at hready1
      rw [Bool.and_eq_true] at hready1
      exact hready1.1
    obtain ⟨e, hemem, heqd⟩ := List.any_eq_true.mp hready_head
    have heq : e.1 = target := of_decide_eq_true heqd
    have htle : vcLeB target (pre.foldl lseqApply LSeqS.new).clock = true := by
      rw [← heq]
      exact hgood1.2 e hemem
    have habs2 : ∀ e' ∈ (lseqApply (pre.foldl lseqApply LSeqS.new)
        (.Delete k target)).siblings, e'.1 ≠ target := by
      intro e' he'
      exact of_decide_eq_true (List.mem_filter.mp he').2
    have habsr := hpres.2.2 target htle habs2
    show lseqDeleteId _ target = _
    unfold lseqDeleteId
    have hfix : (post.foldl lseqApply
        (lseqApply (pre.foldl lseqApply LSeqS.new)
          (.Delete k target))).siblings.filter
            (fun e => decide (e.1 ≠ target)) =
        (post.foldl lseqApply
          (lseqApply (pre.foldl lseqApply LSeqS.new)
            (.Delete k target))).siblings :=
      List.filter_eq_self.mpr (fun e he => decide_eq_true (habsr e he))
    rw [hfix]

/-- C3: the claim quantifies over every op in the register's history with
no compatibility requirement.  With the malformed history
`[Put{[(0,1)], 1}, Put{[(0,1)], 2}]` — two ops with equal clock and
different values — the register ends as `{([(0,1)], 2)}`, and re-applying
the first op of the history yields `{([(0,1)], 1)}`: applying an op of
the history a second time changes the state. -/
theorem C3_counterexample :
    MVOp.Put [(0, 1)] 1 ∈
        [MVOp.Put [(0, 1)] (1 : Nat), MVOp.Put [(0, 1)] 2] ∧
      mvEqB
        (mvApply
          (mvApplyList [MVOp.Put [(0, 1)] (1 : Nat), MVOp.Put [(0, 1)] 2])
          (MVOp.Put [(0, 1)] 1))
        (mvApplyList [MVOp.Put [(0, 1)] (1 : Nat), MVOp.Put [(0, 1)] 2])
          = false := by
  constructor
  · decide
  · decide

/-- C3 (amended): op idempotence holds for compatible histories.  For
MVReg: if no two ops of the history share a clock with different values
(and op clocks are canonical), re-applying any op of the history leaves
the register equal (in the `PartialEq` sense) to what it was.  For LSeq:
if every `Delete` of the history targets an identifier present when it is
applied (causal delivery, spec §5), re-applying any op of the history
leaves the sequence unchanged. -/
theorem C3_amended :
    (∀ (V : Type) [DecidableEq V] (ops : List (MVOp V)),
      (∀ o ∈ ops, VCwf o.clock) →
      (∀ o1 ∈ ops, ∀ o2 ∈ ops, o1.clock = o2.clock → o1.val = o2.val) →
      ∀ o ∈ ops,
        mvEqB (mvApply (mvApplyList ops) o) (mvApplyList ops) = true) ∧
      (∀ (V : Type) (ops : List (LSeqOp V)),
        (∀ o ∈ ops, LOpWf o) →
        deletesReadyB LSeqS.new ops = true →
        ∀ o ∈ ops,
          lseqEqB (lseqApply (lseqApplyList ops) o) (lseqApplyList ops)
            = true) := by
  constructor
  · intro V _ ops hwf hcompat o ho
    exact mv_op_idem ops hwf hcompat o ho
  · intro V ops hwf hready o ho
    rw [lseq_op_idem ops hwf hready o ho]
    exact lseqEqB_refl _

/-- C3 witness: idempotence evaluated on a concrete two-op MVReg history
and a concrete insert-then-delete LSeq history. -/
theorem C3_witness :
    mvEqB
        (mvApply
          (mvApplyList [MVOp.Put [(0, 1)] (1 : Nat), MVOp.Put [(0, 2)] 2])
          (MVOp.Put [(0, 1)] 1))
        (mvApplyList [MVOp.Put [(0, 1)] (1 : Nat), MVOp.Put [(0, 2)] 2])
          = true ∧
      lseqEqB
        (lseqApply
          (lseqApplyList [LSeqOp.Insert [(0, 1)] (5 : Nat) none none,
            LSeqOp.Delete [(0, 1)] [(0, 1)]])
          (LSeqOp.Insert [(0, 1)] 5 none none))
        (lseqApplyList [LSeqOp.Insert [(0, 1)] (5 : Nat) none none,
          LSeqOp.Delete [(0, 1)] [(0, 1)]]) = true := by
  constructor
  · exact C3_amended.1 Nat [MVOp.Put [(0, 1)] 1, MVOp.Put [(0, 2)] 2]
      (by decide) (by decide) _ (List.mem_cons_self ..)
  · exact C3_amended.2 Nat
      [LSeqOp.Insert [(0, 1)] 5 none none, LSeqOp.Delete [(0, 1)] [(0, 1)]]
      (by decide) (by decide) _ (List.mem_cons_self ..)
